import Mathlib

/-!
# Verification of `scripts/clean_and_merge_simpro_data.py`

Shallow embedding of the SimPro data cleaning and merging script.
Strings are modelled as `List Char`; Python's `re.sub` calls on the
specific patterns used by the script are modelled by explicit scanners
(`removeParens` for `\([^)]*\)`, `subW` for `\bWORD\.?\b`, `subAlt` for
`\b(ALT1|...)\b`) that reproduce Python's leftmost, non-overlapping
substitution semantics with word boundaries (`\b` holds between a word
character `[A-Za-z0-9_]` and a non-word character or string edge).
Monetary values are modelled as `ℚ` (the float arithmetic performed by
the script is addition of parsed decimal literals).
-/

/-- Python `\w` / word character for `\b` boundaries (ASCII range of the data). -/
def isWordChar (c : Char) : Bool := c.isAlphanum || c = '_'

/-- Python whitespace as used by `str.strip()` / `str.split()` (ASCII subset). -/
def isSpaceChar (c : Char) : Bool :=
  c = ' ' || c = '\t' || c = '\n' || c = '\r' || c = '\x0b' || c = '\x0c'

/-- `str.strip()` on a character list. -/
def pyStrip (l : List Char) : List Char :=
  ((l.dropWhile isSpaceChar).reverse.dropWhile isSpaceChar).reverse

/-- `str.strip()` on a `String`. -/
def pyStripStr (s : String) : String := (pyStrip s.toList).asString

/-- `str.split()` with no argument: maximal runs of non-whitespace. -/
def pySplit : List Char → List (List Char)
  | [] => []
  | c :: s =>
    if isSpaceChar c then pySplit s
    else (c :: s.takeWhile (fun d => !isSpaceChar d)) ::
      pySplit (s.dropWhile (fun d => !isSpaceChar d))
  termination_by l => l.length
  decreasing_by
  all_goals simp_wf
  all_goals (first
    | omega
    | (have hd := (List.dropWhile_sublist (l := s) (fun d => !isSpaceChar d)).length_le; omega))

/-- `' '.join(tokens)`. -/
def joinSp : List (List Char) → List Char
  | [] => []
  | [t] => t
  | t :: ts => t ++ ' ' :: joinSp ts

/-- `re.sub(r'\([^)]*\)', '', s)`: drop every `(`-to-first-`)` group. -/
def removeParens : List Char → List Char
  | [] => []
  | c :: s =>
    if c = '(' ∧ s.contains ')' = true then
      removeParens ((s.dropWhile (fun d => !(d = ')'))).drop 1)
    else c :: removeParens s
  termination_by l => l.length
  decreasing_by
  all_goals simp_wf
  all_goals (first
    | omega
    | (have hd := (List.dropWhile_sublist (l := s) (fun d => !(d = ')'))).length_le; omega))

/-- `re.sub(r'\bW\.?\b', r, s)` for a word `W = a :: as` made of word
characters, scanning with `pw` = "the previous character is a word
character".  Mirrors Python's backtracking: the optional dot is consumed
only when the character after it is a word character; otherwise the bare
word is matched when the character after it is a non-word character or
the string ends. -/
def subW (a : Char) (as r : List Char) : Bool → List Char → List Char
  | _,  [] => []
  | pw, c :: s =>
    if pw = false ∧ (a :: as).isPrefixOf (c :: s) = true then
      if (s.drop as.length).headD ' ' = '.' ∧
          isWordChar (((s.drop as.length).drop 1).headD ' ') = true then
        r ++ subW a as r false ((s.drop as.length).drop 1)
      else if s.drop as.length ≠ [] ∧ (s.drop as.length).headD ' ' ≠ '.' ∧
          isWordChar ((s.drop as.length).headD ' ') = true then
        c :: subW a as r (isWordChar c) s
      else
        r ++ subW a as r true (s.drop as.length)
    else c :: subW a as r (isWordChar c) s
  termination_by _ s => s.length
  decreasing_by
  all_goals simp_wf
  all_goals omega

/-- The four substitutions of `clean_company_name`, in source order. -/
def corpRepl : List Char := ['C','O','R','P','O','R','A','T','I','O','N']

def incRepl : List Char := ['I','N','C']

def llcRepl : List Char := ['L','L','C']

def coRepl : List Char := ['C','O','M','P','A','N','Y']

def subCORP (l : List Char) : List Char := subW 'C' ['O','R','P'] corpRepl false l

def subINC (l : List Char) : List Char := subW 'I' ['N','C'] incRepl false l

def subLLC (l : List Char) : List Char := subW 'L' ['L','C'] llcRepl false l

def subCO (l : List Char) : List Char := subW 'C' ['O'] coRepl false l

/-- `' '.join(s.split())`. -/
def collapseWs (l : List Char) : List Char := joinSp (pySplit l)

/-- `clean_company_name` on a character list (the non-empty branch):
upper-case and trim, remove parenthesized content, expand the four
abbreviations, collapse whitespace, trim. -/
def cleanList (l : List Char) : List Char :=
  pyStrip (collapseWs (subCO (subLLC (subINC (subCORP
    (removeParens (pyStrip (l.map Char.toUpper))))))))

/-- `clean_company_name` (lines 27-51 of the script). -/
def clean_company_name (s : String) : String :=
  if s = "" then "" else (cleanList s.toList).asString

/-- Value of a digit string (base 10). -/
def digitsToNat (l : List Char) : Nat := l.foldl (fun a c => a * 10 + (c.toNat - 48)) 0

/-- Optional leading sign of a float literal: `(is negative, rest)`. -/
def pySign (t : List Char) : Bool × List Char :=
  match t with
  | [] => (false, [])
  | c :: r => if c = '-' then (true, r) else if c = '+' then (false, r) else (false, c :: r)

/-- Optional fractional part after the integer digits: `(fraction digits, rest)`. -/
def pyFrac (t : List Char) : List Char × List Char :=
  match t with
  | [] => ([], [])
  | c :: r =>
    if c = '.' then (r.takeWhile Char.isDigit, r.dropWhile Char.isDigit) else ([], c :: r)

/-- Optional exponent part; `none` when the tail is not a well-formed
exponent (or when there is trailing garbage). -/
def pyExp : List Char → Option ℚ
  | [] => some 1
  | e :: r =>
    if e = 'e' ∨ e = 'E' then
      if (pySign r).2.takeWhile Char.isDigit = [] ∨ (pySign r).2.dropWhile Char.isDigit ≠ [] then
        none
      else if (pySign r).1 then
        some ((10 : ℚ) ^ digitsToNat ((pySign r).2.takeWhile Char.isDigit))⁻¹
      else some ((10 : ℚ) ^ digitsToNat ((pySign r).2.takeWhile Char.isDigit))
    else none

/-- The integer digits of the (sign-stripped) literal. -/
def pyIntPart (t : List Char) : List Char := (pySign t).2.takeWhile Char.isDigit

/-- The fraction digits and the tail after them. -/
def pyFracPart (t : List Char) : List Char × List Char :=
  pyFrac ((pySign t).2.dropWhile Char.isDigit)

/-- Python `float(str)` on the decimal literals occurring in the data:
optional surrounding whitespace, optional sign, digits with optional
decimal point and optional exponent.  Returns `none` for malformed
input (the script then falls back to `0.0`).  Non-finite literals
(`inf`, `nan`) and digit-group underscores are not produced by this
data set and are modelled as malformed. -/
def pyFloat (s : List Char) : Option ℚ :=
  if pyIntPart (pyStrip s) = [] ∧ (pyFracPart (pyStrip s)).1 = [] then none
  else
    match pyExp (pyFracPart (pyStrip s)).2 with
    | none => none
    | some ex =>
      some ((if (pySign (pyStrip s)).1 then -1 else 1) *
        ((digitsToNat (pyIntPart (pyStrip s)) : ℚ) +
          (digitsToNat (pyFracPart (pyStrip s)).1 : ℚ) /
            (10 : ℚ) ^ (pyFracPart (pyStrip s)).1.length) * ex)

/-- `parse_contract_value` (lines 53-64): falsy input gives `0.0`;
otherwise remove `$` and `,` and parse as a float, with any parse
failure giving `0.0`. -/
def parse_contract_value (s : String) : ℚ :=
  if s = "" then 0
  else
    match pyFloat (s.toList.filter (fun c => !(c = '$' || c = ','))) with
    | some q => q
    | none => 0

/-- `determine_service_tier` (lines 66-73). -/
def determine_service_tier (total : ℚ) : String :=
  if total ≥ 250000 then "GUARDIAN"
  else if total ≥ 100000 then "ASSURE"
  else "CORE"

/-- First alternative of `\b(ALT1|ALT2|...)\b` matching at the current
position (the position's left boundary is already checked by the
caller): returns the length of the first alternative, in pattern order,
that is a prefix of `s` and is followed by a non-word character or the
end.  Each alternative is a non-empty word `fst :: snd`. -/
def altMatch (alts : List (Char × List Char)) (s : List Char) : Option Nat :=
  match alts with
  | [] => none
  | (a, as) :: rest =>
    if (a :: as).isPrefixOf s = true ∧
        isWordChar ((s.drop (as.length + 1)).headD ' ') = false then
      some (as.length + 1)
    else altMatch rest s

/-- `re.sub(r'\b(ALT1|ALT2|...)\b', '', s)` for word alternatives. -/
def subAlt (alts : List (Char × List Char)) : Bool → List Char → List Char
  | _, [] => []
  | pw, c :: s =>
    if pw = false then
      match h : altMatch alts (c :: s) with
      | some n => subAlt alts true ((c :: s).drop n)
      | none => c :: subAlt alts (isWordChar c) s
    else c :: subAlt alts (isWordChar c) s
  termination_by _ s => s.length
  decreasing_by
  all_goals simp_wf
  · have hn : 1 ≤ n := by
      clear * - h
      induction alts with
      | nil => simp [altMatch] at h
      | cons hd tl ih =>
        rw [altMatch] at h
        split at h
        · simp at h
          omega
        · exact ih h
    simp [List.length_drop]
    omega
  all_goals omega

/-- The alternatives of `\b(LLC|INC|CORPORATION|COMPANY|CORP)\b`, in
pattern order (line 185). -/
def suffixAlts : List (Char × List Char) :=
  [('L', ['L','C']), ('I', ['N','C']), ('C', ['O','R','P','O','R','A','T','I','O','N']),
   ('C', ['O','M','P','A','N','Y']), ('C', ['O','R','P'])]

/-- `re.sub(r'\b(LLC|INC|CORPORATION|COMPANY|CORP)\b', '', name).strip()`
(lines 185-186). -/
def stripLegalSuffix (l : List Char) : List Char := pyStrip (subAlt suffixAlts false l)

/-- Which of the three matching heuristics produced a match. -/
inductive MatchRule where
  | exact : MatchRule
  | containment : MatchRule
  | strippedEq : MatchRule
deriving DecidableEq, Repr

/-- Python `needle in haystack` on strings: contiguous substring test. -/
def substrB (needle haystack : List Char) : Bool :=
  haystack.tails.any (fun t => needle.isPrefixOf t)

/-- First-match lookup in an association list (the model of a Python
dict whose keys are unique: see `insertOver`). -/
def lookupA {α : Type} (m : List (List Char × α)) (k : List Char) : Option α :=
  match m with
  | [] => none
  | (k0, v0) :: rest => if k0 = k then some v0 else lookupA rest k

/-- Python dict assignment `d[k] = v`: overwrite in place if the key is
present (keeping its original position in iteration order), else append. -/
def insertOver {α : Type} (m : List (List Char × α)) (k : List Char) (v : α) :
    List (List Char × α) :=
  match m with
  | [] => [(k, v)]
  | (k0, v0) :: rest => if k0 = k then (k0, v) :: rest else (k0, v0) :: insertOver rest k v

/-- The fuzzy-matching loop of lines 177-191: visit the stored
`(cleaned customer name, customer id)` pairs in index order; accept the
first one that passes the containment test (both names longer than 10
characters and one a substring of the other) or, failing that within
the same iteration, the suffix-stripped equality test. -/
def fuzzyLoop (m : List (List Char × String)) (cleaned : List Char) :
    Option (List Char × String × MatchRule) :=
  match m with
  | [] => none
  | (stored, cid) :: rest =>
    if 10 < cleaned.length ∧ 10 < stored.length ∧
        (substrB cleaned stored = true ∨ substrB stored cleaned = true) then
      some (stored, cid, MatchRule.containment)
    else if stripLegalSuffix cleaned ≠ [] ∧ stripLegalSuffix stored ≠ [] ∧
        stripLegalSuffix cleaned = stripLegalSuffix stored then
      some (stored, cid, MatchRule.strippedEq)
    else fuzzyLoop rest cleaned

/-- The customer-matching logic of lines 169-191: exact lookup of the
normalized name in the index first; only on a miss, the fuzzy loop.
Returns the stored key, the customer id and the rule that fired. -/
def matchCustomer (m : List (List Char × String)) (cleaned : List Char) :
    Option (List Char × String × MatchRule) :=
  match lookupA m cleaned with
  | some cid => some (cleaned, cid, MatchRule.exact)
  | none => fuzzyLoop m cleaned

/-- ASCII `str.lower()` per character (`Char.toLower` is exactly the
basic-latin lowering the data needs). -/
def asciiLowerStr (s : String) : String := (s.toList.map Char.toLower).asString

/-- A contract record as built at lines 197-209 (the generated UUID and
the two parsed dates are omitted: no claim mentions them). -/
structure Contract where
  customer_name_in_contract : String
  contract_name : String
  contract_number : String
  contract_value : ℚ
  contract_status : String
  contract_email : String
  contract_notes : String
  matched_customer_id : Option String
deriving DecidableEq, Repr, Inhabited

/-- A customer record as built at lines 110-128 (address and tax-code
fields are omitted: no claim mentions them). -/
structure Customer where
  simpro_customer_id : String
  company_name : String
  company_name_cleaned : String
  email : String
  is_contract_customer : Bool
  contracts : List Contract
  total_contract_value : ℚ
  active_contract_count : Nat
  has_active_contracts : Bool
  service_tier : String
  latest_contract_email : String
deriving DecidableEq, Repr, Inhabited

/-- A row of `customers.csv` (the fields the script reads). -/
structure CustomerRow where
  customer_id : String
  company_name : String
  email : String
  is_contract_customer_raw : String
deriving Repr

/-- A data row of the contracts report (the fields the script reads). -/
structure ContractRow where
  customer : String
  contract_name : String
  contract_no : String
  value : String
  status : String
  email : String
  notes : String
deriving Repr

/-- The customer record built from one CSV row (lines 110-128). -/
def mkCustomer (cid cname : String) (row : CustomerRow) : Customer :=
  { simpro_customer_id := cid
    company_name := cname
    company_name_cleaned := clean_company_name cname
    email := asciiLowerStr (pyStripStr row.email)
    is_contract_customer := asciiLowerStr (pyStripStr row.is_contract_customer_raw) = "yes"
    contracts := []
    total_contract_value := 0
    active_contract_count := 0
    has_active_contracts := false
    service_tier := "CORE"
    latest_contract_email := "" }

/-- One step of the `load_customers` loop (lines 102-134): rows with a
falsy id or name are skipped; otherwise the customer is stored under its
id and the normalized name is mapped to the id (overwriting any earlier
holder of the same normalized name). -/
def loadCustomersStep
    (acc : List (List Char × Customer) × List (List Char × String))
    (row : CustomerRow) :
    List (List Char × Customer) × List (List Char × String) :=
  let cid := pyStripStr row.customer_id
  let cname := pyStripStr row.company_name
  if cid = "" ∨ cname = "" then acc
  else
    (insertOver acc.1 cid.toList (mkCustomer cid cname row),
     insertOver acc.2 (clean_company_name cname).toList cid)

/-- `load_customers` (lines 92-137): the customer dict keyed by SimPro id
and the normalized-name index. -/
def load_customers (rows : List CustomerRow) :
    List (List Char × Customer) × List (List Char × String) :=
  rows.foldl loadCustomersStep ([], [])

/-- Is a contract row skipped by the guards of lines 158-166? -/
def skipRow (row : ContractRow) : Bool :=
  let customer_name := pyStripStr row.customer
  let contract_name := pyStripStr row.contract_name
  customer_name = "" || contract_name = "" ||
  customer_name = "SMA Included" || customer_name = "UNL RS" ||
  customer_name = "Monthly" || customer_name = "Quarterly" ||
  customer_name = "Weekly" ||
  (customer_name.toList ≠ [] && customer_name.toList.all Char.isDigit) ||
  substrB "Selected Criteria".toList customer_name.toList

/-- The contract record built from one row (lines 194-209). -/
def mkContract (row : ContractRow) (matched : Option String) : Contract :=
  { customer_name_in_contract := pyStripStr row.customer
    contract_name := pyStripStr row.contract_name
    contract_number := pyStripStr row.contract_no
    contract_value := parse_contract_value row.value
    contract_status :=
      if asciiLowerStr (pyStripStr row.status) = "active" then "active" else "expired"
    contract_email := asciiLowerStr (pyStripStr row.email)
    contract_notes := pyStripStr row.notes
    matched_customer_id := matched }

/-- The per-customer statistics update of lines 215-226. -/
def attachContract (c : Customer) (contract : Contract) : Customer :=
  let c1 := { c with contracts := c.contracts ++ [contract] }
  if contract.contract_status = "active" then
    { c1 with
      has_active_contracts := true
      active_contract_count := c1.active_contract_count + 1
      total_contract_value := c1.total_contract_value + contract.contract_value
      latest_contract_email :=
        if contract.contract_email ≠ "" then contract.contract_email
        else c1.latest_contract_email }
  else c1

/-- Update the (unique) entry of key `k`, if present. -/
def updateA {α : Type} (m : List (List Char × α)) (k : List Char) (f : α → α) :
    List (List Char × α) :=
  match m with
  | [] => []
  | (k0, v0) :: rest => if k0 = k then (k0, f v0) :: rest else (k0, v0) :: updateA rest k f

/-- One iteration of the contract loop (lines 153-228) over the state
`(customers, contracts so far)`. -/
def contractStep (nameMap : List (List Char × String))
    (acc : List (List Char × Customer) × List Contract) (row : ContractRow) :
    List (List Char × Customer) × List Contract :=
  if skipRow row then acc
  else
    let cleaned := (clean_company_name (pyStripStr row.customer)).toList
    let matched := (matchCustomer nameMap cleaned).map (fun x => x.2.1)
    let contract := mkContract row matched
    let customers :=
      match matched with
      | some cid => updateA acc.1 cid.toList (fun c => attachContract c contract)
      | none => acc.1
    (customers, acc.2 ++ [contract])

/-- `load_and_match_contracts` (lines 139-243): fold the contract rows,
then refresh every customer's service tier from its total (lines
240-241).  Returns the updated customers and the contract list. -/
def load_and_match_contracts (customers : List (List Char × Customer))
    (nameMap : List (List Char × String)) (rows : List ContractRow) :
    List (List Char × Customer) × List Contract :=
  let st := rows.foldl (contractStep nameMap) (customers, [])
  (st.1.map (fun kv =>
      (kv.1, { kv.2 with service_tier := determine_service_tier kv.2.total_contract_value })),
   st.2)

/-! ## Helper lemmas for value parsing -/

theorem mem_of_mem_pyStrip {c : Char} {l : List Char} (h : c ∈ pyStrip l) : c ∈ l := by
  unfold pyStrip at h
  rw [List.mem_reverse] at h
  have h2 := (List.dropWhile_sublist (l := (l.dropWhile isSpaceChar).reverse) isSpaceChar).subset h
  rw [List.mem_reverse] at h2
  exact (List.dropWhile_sublist (l := l) isSpaceChar).subset h2

theorem pySign_false {t : List Char} (hs : ('-' : Char) ∉ t) : (pySign t).1 = false := by
  cases t with
  | nil => rfl
  | cons c r =>
    have hc : c ≠ '-' := fun hcc => hs (hcc ▸ List.mem_cons_self c r)
    by_cases hp : c = '+' <;> simp [pySign, hc, hp]

theorem pyExp_pos {t : List Char} {q : ℚ} (h : pyExp t = some q) : 0 < q := by
  unfold pyExp at h
  revert h
  split
  · intro h
    injection h with h
    rw [← h]
    norm_num
  · split
    · split
      · intro h; exact absurd h (by simp)
      · split
        · intro h
          injection h with h
          rw [← h]
          positivity
        · intro h
          injection h with h
          rw [← h]
          positivity
    · intro h; exact absurd h (by simp)

theorem pyFloat_nonneg {l : List Char} (hl : ('-' : Char) ∉ l) :
    ∀ q, pyFloat l = some q → 0 ≤ q := by
  intro q h
  have hs : ('-' : Char) ∉ pyStrip l := fun hm => hl (mem_of_mem_pyStrip hm)
  unfold pyFloat at h
  rw [pySign_false hs] at h
  revert h
  split
  · intro h; exact absurd h (by simp)
  · split
    · intro h; exact absurd h (by simp)
    · next ex hex =>
      intro h
      injection h with h
      rw [← h]
      have hexpos : 0 < ex := pyExp_pos hex
      have h0 : (0:ℚ) ≤ (digitsToNat (pyIntPart (pyStrip l)) : ℚ) +
          (digitsToNat (pyFracPart (pyStrip l)).1 : ℚ) /
            (10 : ℚ) ^ (pyFracPart (pyStrip l)).1.length := by positivity
      simp only [if_neg Bool.false_ne_true]
      nlinarith

/-! ## Claims about statuses, value parsing and matching precedence -/

/-- C10: every contract record's `contract_status` is exactly `"active"`
or `"expired"`; it is `"active"` iff the trimmed raw Status field equals
`"active"` ignoring case, and every other raw status (empty, missing or
unknown such as `"Pending"`) is coerced to `"expired"`.  All contract
records of the run are built by `mkContract`. -/
theorem c10_contract_status (row : ContractRow) (matched : Option String) :
    ((mkContract row matched).contract_status = "active" ∨
      (mkContract row matched).contract_status = "expired") ∧
    ((mkContract row matched).contract_status = "active" ↔
      asciiLowerStr (pyStripStr row.status) = "active") := by
  unfold mkContract
  by_cases h : asciiLowerStr (pyStripStr row.status) = "active" <;> simp [h]

/-- C7: `parse_contract_value` never raises: it is a total function that
removes `$` and `,` and parses the remainder as a decimal; `"N/A"`
parses to `0.0`, `"$1,234.50"` parses to `1234.50`, and any empty or
malformed remainder yields `0.0` rather than an error. -/
theorem c7_parse_contract_value :
    parse_contract_value "N/A" = 0 ∧ parse_contract_value "$1,234.50" = 2469 / 2 ∧
    parse_contract_value "" = 0 ∧
    (∀ s : String,
      pyFloat (s.toList.filter (fun c => !(c = '$' || c = ','))) = none →
      parse_contract_value s = 0) := by
  refine ⟨?_, ?_, ?_, ?_⟩
  · simp +decide [parse_contract_value, pyFloat, pyIntPart, pyFracPart, pySign, pyFrac,
      pyStrip, digitsToNat]
  · simp +decide [parse_contract_value, pyFloat, pyExp, pyIntPart, pyFracPart, pySign, pyFrac,
      pyStrip, digitsToNat]
    norm_num
  · simp [parse_contract_value]
  · intro s h
    unfold parse_contract_value
    split
    · rfl
    · rw [h]

/-- Witness for C7 at the concrete malformed input `"N/A"`. -/
theorem c7_witness :
    pyFloat ("N/A".toList.filter (fun c => !(c = '$' || c = ','))) = none ∧
    parse_contract_value "N/A" = 0 := by
  have hn : pyFloat ("N/A".toList.filter (fun c => !(c = '$' || c = ','))) = none := by
    simp +decide [pyFloat, pyIntPart, pyFracPart, pySign, pyFrac, pyStrip]
  exact ⟨hn, c7_parse_contract_value.2.2.2 "N/A" hn⟩

/-- C4 is false as stated: `parse_contract_value` does not return a
non-negative number for every input string; a leading minus sign is
parsed, so `"-5"` yields `-5 < 0`. -/
theorem c4_counterexample :
    parse_contract_value "-5" = -5 ∧ parse_contract_value "-5" < 0 := by
  have h : parse_contract_value "-5" = -5 := by
    simp +decide [parse_contract_value, pyFloat, pyExp, pyIntPart, pyFracPart, pySign, pyFrac,
      pyStrip, digitsToNat]
  exact ⟨h, by rw [h]; norm_num⟩

/-- C4 (amended): for every value string that contains no `'-'`
character — in particular every well-formed currency string of digits,
`$`, `,` and a decimal point — `parse_contract_value` returns a
non-negative number. -/
theorem c4_value_nonneg (s : String) (h : ∀ c ∈ s.toList, c ≠ '-') :
    0 ≤ parse_contract_value s := by
  unfold parse_contract_value
  split
  · norm_num
  · have hm : ('-' : Char) ∉ s.toList.filter (fun c => !(c = '$' || c = ',')) := by
      intro hmem
      exact h '-' (List.mem_of_mem_filter hmem) rfl
    cases hp : pyFloat (s.toList.filter (fun c => !(c = '$' || c = ','))) with
    | none => norm_num
    | some q => exact pyFloat_nonneg hm q hp

/-- Witness for the amended C4 at the concrete input `"$1,234.50"`. -/
theorem c4_witness :
    (∀ c ∈ ("$1,234.50" : String).toList, c ≠ '-') ∧
    0 ≤ parse_contract_value "$1,234.50" :=
  ⟨by decide, c4_value_nonneg "$1,234.50" (by decide)⟩

/-- C3: whenever the normalized contract name is a key of the
normalized-name index, the matcher returns that key's customer id with
rule `exact` — the fuzzy heuristics are not consulted (the match is
computed before the fuzzy loop is ever reached). -/
theorem c3_exact_match_first (m : List (List Char × String)) (cleaned : List Char)
    (cid : String) (h : lookupA m cleaned = some cid) :
    matchCustomer m cleaned = some (cleaned, cid, MatchRule.exact) := by
  unfold matchCustomer
  rw [h]

/-- Witness for C3: the index also holds a candidate that the
containment heuristic would accept, yet the exact match wins. -/
theorem c3_witness :
    lookupA [("ABCDEFGHIJKLMNO".toList, "c2"), ("ABCDEFGHIJKL".toList, "c1")]
      "ABCDEFGHIJKL".toList = some "c1" ∧
    matchCustomer [("ABCDEFGHIJKLMNO".toList, "c2"), ("ABCDEFGHIJKL".toList, "c1")]
      "ABCDEFGHIJKL".toList = some ("ABCDEFGHIJKL".toList, "c1", MatchRule.exact) := by
  have h : lookupA [("ABCDEFGHIJKLMNO".toList, "c2"), ("ABCDEFGHIJKL".toList, "c1")]
      "ABCDEFGHIJKL".toList = some "c1" := by
    simp +decide [lookupA]
  exact ⟨h, c3_exact_match_first _ _ _ h⟩

theorem fuzzyLoop_containment {m : List (List Char × String)} {cleaned stored : List Char}
    {cid : String}
    (h : fuzzyLoop m cleaned = some (stored, cid, MatchRule.containment)) :
    10 < cleaned.length ∧ 10 < stored.length ∧
      (substrB cleaned stored = true ∨ substrB stored cleaned = true) := by
  induction m with
  | nil => exact absurd h (by simp [fuzzyLoop])
  | cons p rest ih =>
    rw [fuzzyLoop] at h
    split at h
    · next hc =>
      injection h with h
      injection h with h1 h2
      injection h2 with h2 _
      subst h1
      exact hc
    · split at h
      · injection h with h
        injection h with h1 h2
        injection h2 with h2 h3
        exact absurd h3 (by simp)
      · exact ih h

/-- C5: a containment match is only produced when both the normalized
contract name and the accepted stored name are strictly longer than 10
characters and one is a substring of the other; in particular two names
of length at most 10 can never match through the containment rule. -/
theorem c5_containment_rule (m : List (List Char × String)) (cleaned stored : List Char)
    (cid : String)
    (h : matchCustomer m cleaned = some (stored, cid, MatchRule.containment)) :
    10 < cleaned.length ∧ 10 < stored.length ∧
      (substrB cleaned stored = true ∨ substrB stored cleaned = true) := by
  unfold matchCustomer at h
  cases hl : lookupA m cleaned with
  | some c =>
    rw [hl] at h
    injection h with h
    injection h with h1 h2
    injection h2 with h2 h3
    exact absurd h3 (by simp)
  | none =>
    rw [hl] at h
    exact fuzzyLoop_containment h

/-- Witness for C5 at a concrete index and name. -/
theorem c5_witness :
    matchCustomer [("ABCDEFGHIJKL".toList, "c9")] "ABCDEFGHIJK".toList
      = some ("ABCDEFGHIJKL".toList, "c9", MatchRule.containment) ∧
    10 < ("ABCDEFGHIJK".toList : List Char).length ∧
    10 < ("ABCDEFGHIJKL".toList : List Char).length ∧
    (substrB "ABCDEFGHIJK".toList "ABCDEFGHIJKL".toList = true ∨
      substrB "ABCDEFGHIJKL".toList "ABCDEFGHIJK".toList = true) := by
  have h : matchCustomer [("ABCDEFGHIJKL".toList, "c9")] "ABCDEFGHIJK".toList
      = some ("ABCDEFGHIJKL".toList, "c9", MatchRule.containment) := by
    simp +decide [matchCustomer, lookupA, fuzzyLoop, substrB]
  exact ⟨h, c5_containment_rule _ _ _ _ h⟩

/-! ## Claim C6: last-write-wins index build -/

/-- Is a customer row kept by `load_customers` (line 106)? -/
def validCustomerRow (r : CustomerRow) : Bool :=
  !(pyStripStr r.customer_id = "" || pyStripStr r.company_name = "")

theorem lookupA_insertOver {α : Type} (m : List (List Char × α)) (k : List Char) (v : α)
    (k' : List Char) :
    lookupA (insertOver m k v) k' = if k = k' then some v else lookupA m k' := by
  induction m with
  | nil => by_cases h : k = k' <;> simp [insertOver, lookupA, h]
  | cons p rest ih =>
    obtain ⟨k0, v0⟩ := p
    by_cases h0 : k0 = k
    · subst h0
      by_cases h1 : k0 = k'
      · subst h1
        simp [insertOver, lookupA]
      · simp [insertOver, lookupA, h1, fun h : k0 = k' => h1 h]
    · by_cases h1 : k0 = k'
      · subst h1
        rw [if_neg (fun he => h0 he.symm)]
        simp [insertOver, lookupA, h0]
      · simp [insertOver, lookupA, h0, h1, ih]

theorem loadCustomersStep_invalid (acc : List (List Char × Customer) × List (List Char × String))
    (r : CustomerRow) (h : validCustomerRow r = false) : loadCustomersStep acc r = acc := by
  unfold loadCustomersStep
  rw [if_pos]
  unfold validCustomerRow at h
  simp only [Bool.not_eq_false', Bool.or_eq_true, decide_eq_true_eq] at h
  simpa using h

theorem loadCustomersStep_valid (acc : List (List Char × Customer) × List (List Char × String))
    (r : CustomerRow) (h : validCustomerRow r = true) :
    loadCustomersStep acc r =
      (insertOver acc.1 (pyStripStr r.customer_id).toList
        (mkCustomer (pyStripStr r.customer_id) (pyStripStr r.company_name) r),
       insertOver acc.2 (clean_company_name (pyStripStr r.company_name)).toList
        (pyStripStr r.customer_id)) := by
  unfold loadCustomersStep
  rw [if_neg]
  unfold validCustomerRow at h
  simp only [Bool.not_eq_true', Bool.or_eq_false_iff, decide_eq_false_iff_not] at h
  simpa using h

/-- C6: index build is last-write-wins: looking up any key in the
normalized-name index built by `load_customers` yields exactly the
SimPro id of the *last* loaded (valid) customer row whose normalized
company name equals that key; earlier holders of the key are dropped. -/
theorem c6_last_write_wins (rows : List CustomerRow) (k : List Char) :
    lookupA (load_customers rows).2 k =
      ((rows.filter (fun r => validCustomerRow r &&
          decide ((clean_company_name (pyStripStr r.company_name)).toList = k))).getLast?).map
        (fun r => pyStripStr r.customer_id) := by
  induction rows using List.reverseRecOn with
  | nil => simp [load_customers, lookupA]
  | append_singleton l r ih =>
    unfold load_customers at ih ⊢
    rw [List.foldl_append]
    simp only [List.foldl_cons, List.foldl_nil]
    rw [List.filter_append]
    by_cases hv : validCustomerRow r = true
    · rw [loadCustomersStep_valid _ _ hv]
      by_cases hk : (clean_company_name (pyStripStr r.company_name)).toList = k
      · have hfil : List.filter (fun r => validCustomerRow r &&
            decide ((clean_company_name (pyStripStr r.company_name)).toList = k)) [r] = [r] := by
          simp [List.filter_cons, hv, hk]
          exact hk
        rw [hfil]
        rw [List.getLast?_concat]
        show lookupA (insertOver _ _ _) k = _
        rw [lookupA_insertOver, if_pos hk]
        rfl
      · have hfil : List.filter (fun r => validCustomerRow r &&
            decide ((clean_company_name (pyStripStr r.company_name)).toList = k)) [r] = [] := by
          simp [List.filter_cons, hk]
          intro _
          exact hk
        rw [hfil, List.append_nil]
        show lookupA (insertOver _ _ _) k = _
        rw [lookupA_insertOver, if_neg hk]
        exact ih
    · rw [loadCustomersStep_invalid _ _ (by simpa using hv)]
      have hfil : List.filter (fun r => validCustomerRow r &&
          decide ((clean_company_name (pyStripStr r.company_name)).toList = k)) [r] = [] := by
        simp [List.filter_cons, hv]
      rw [hfil, List.append_nil]
      exact ih

/-! ## Claim C9: matched ids always exist -/

theorem mem_insertOver {α : Type} {m : List (List Char × α)} {k : List Char} {v : α}
    {p : List Char × α} (h : p ∈ insertOver m k v) : p ∈ m ∨ p = (k, v) := by
  induction m with
  | nil =>
    simp [insertOver] at h
    exact Or.inr h
  | cons q rest ih =>
    obtain ⟨k0, v0⟩ := q
    unfold insertOver at h
    by_cases h0 : k0 = k
    · rw [if_pos h0] at h
      rcases List.mem_cons.1 h with h1 | h1
      · exact Or.inr (by rw [h1, h0])
      · exact Or.inl (List.mem_cons_of_mem _ h1)
    · rw [if_neg h0] at h
      rcases List.mem_cons.1 h with h1 | h1
      · exact Or.inl (h1 ▸ List.mem_cons_self _ _)
      · rcases ih h1 with h2 | h2
        · exact Or.inl (List.mem_cons_of_mem _ h2)
        · exact Or.inr h2

theorem lookupA_mem {α : Type} {m : List (List Char × α)} {k : List Char} {v : α}
    (h : lookupA m k = some v) : (k, v) ∈ m := by
  induction m with
  | nil => exact absurd h (by simp [lookupA])
  | cons q rest ih =>
    obtain ⟨k0, v0⟩ := q
    unfold lookupA at h
    by_cases h0 : k0 = k
    · rw [if_pos h0] at h
      injection h with h
      subst h0; subst h
      exact List.mem_cons_self _ _
    · rw [if_neg h0] at h
      exact List.mem_cons_of_mem _ (ih h)

theorem fuzzyLoop_mem {m : List (List Char × String)} {cleaned stored : List Char}
    {cid : String} {rule : MatchRule}
    (h : fuzzyLoop m cleaned = some (stored, cid, rule)) : (stored, cid) ∈ m := by
  induction m with
  | nil => exact absurd h (by simp [fuzzyLoop])
  | cons p rest ih =>
    rw [fuzzyLoop] at h
    split at h
    · injection h with h
      injection h with h1 h2
      injection h2 with h2 _
      have : p = (stored, cid) := by
        rw [← h1, ← h2]
      rw [← this]
      exact List.mem_cons_self _ _
    · split at h
      · injection h with h
        injection h with h1 h2
        injection h2 with h2 _
        have : p = (stored, cid) := by
          rw [← h1, ← h2]
        exact this ▸ List.mem_cons_self _ _
      · exact List.mem_cons_of_mem _ (ih h)

theorem matchCustomer_mem {m : List (List Char × String)} {cleaned stored : List Char}
    {cid : String} {rule : MatchRule}
    (h : matchCustomer m cleaned = some (stored, cid, rule)) : (stored, cid) ∈ m := by
  unfold matchCustomer at h
  cases hl : lookupA m cleaned with
  | some c =>
    rw [hl] at h
    injection h with h
    injection h with h1 h2
    injection h2 with h2 _
    subst h1; subst h2
    exact lookupA_mem hl
  | none =>
    rw [hl] at h
    exact fuzzyLoop_mem h

theorem load_customers_map_sound (rows : List CustomerRow) :
    ∀ k cid, (k, cid) ∈ (load_customers rows).2 →
      (lookupA (load_customers rows).1 cid.toList).isSome = true := by
  induction rows using List.reverseRecOn with
  | nil => intro k cid h; exact absurd h (by simp [load_customers])
  | append_singleton l r ih =>
    intro k cid h
    unfold load_customers at ih h ⊢
    rw [List.foldl_append] at h ⊢
    simp only [List.foldl_cons, List.foldl_nil] at h ⊢
    by_cases hv : validCustomerRow r = true
    · rw [loadCustomersStep_valid _ _ hv] at h ⊢
      rcases mem_insertOver h with h1 | h1
      · have := ih k cid h1
        rw [lookupA_insertOver]
        split
        · rfl
        · exact this
      · injection h1 with _ h2
        subst h2
        rw [lookupA_insertOver, if_pos rfl]
        rfl
    · rw [loadCustomersStep_invalid _ _ (by simpa using hv)] at h ⊢
      exact ih k cid h

/-- C9: every back-reference that the matcher sets refers to an existing
customer: whenever `matchCustomer` run against the index built by
`load_customers` returns a customer id, that id is a key of the customer
dict built in the same run, so the update at line 216 never hits a
missing key. -/
theorem c9_matched_customer_exists (crows : List CustomerRow) (cleaned stored : List Char)
    (cid : String) (rule : MatchRule)
    (h : matchCustomer (load_customers crows).2 cleaned = some (stored, cid, rule)) :
    (lookupA (load_customers crows).1 cid.toList).isSome = true :=
  load_customers_map_sound crows stored cid (matchCustomer_mem h)

theorem c9_witness :
    matchCustomer (load_customers [⟨"1", "Acme", "", ""⟩]).2 "ACME".toList
      = some ("ACME".toList, "1", MatchRule.exact) ∧
    (lookupA (load_customers [⟨"1", "Acme", "", ""⟩]).1 ("1" : String).toList).isSome = true := by
  have h : matchCustomer (load_customers [⟨"1", "Acme", "", ""⟩]).2 "ACME".toList
      = some ("ACME".toList, "1", MatchRule.exact) := by
    simp +decide [load_customers, loadCustomersStep, insertOver, mkCustomer, matchCustomer,
      lookupA, clean_company_name, cleanList, subCORP, subINC, subLLC, subCO, subW,
      removeParens, pyStrip, pyStripStr, collapseWs, pySplit, joinSp, corpRepl, incRepl,
      llcRepl, coRepl, List.asString]
  exact ⟨h, c9_matched_customer_exists _ _ _ _ _ h⟩

/-! ## Claim C2: aggregate invariant -/

/-- Sum of the values of the active contracts of a list. -/
def sumActive (l : List Contract) : ℚ :=
  ((l.filter (fun c => c.contract_status = "active")).map (fun c => c.contract_value)).sum

theorem attachContract_inv {c : Customer}
    (h : c.total_contract_value = sumActive c.contracts) (ct : Contract) :
    (attachContract c ct).total_contract_value = sumActive (attachContract c ct).contracts := by
  unfold attachContract sumActive
  by_cases hs : ct.contract_status = "active"
  · simp only [if_pos hs, List.filter_append, List.map_append, List.sum_append,
      List.filter_cons, List.filter_nil, hs, decide_eq_true_eq]
    simp [sumActive] at h
    simp [h, hs]
  · simp only [if_neg hs, List.filter_append, List.map_append, List.sum_append,
      List.filter_cons, List.filter_nil]
    simp [sumActive] at h
    simp [h, hs]

theorem mem_updateA {α : Type} {m : List (List Char × α)} {k : List Char} {f : α → α}
    {p : List Char × α} (h : p ∈ updateA m k f) :
    p ∈ m ∨ ∃ v, (k, v) ∈ m ∧ p = (k, f v) := by
  induction m with
  | nil => exact absurd h (by simp [updateA])
  | cons q rest ih =>
    obtain ⟨k0, v0⟩ := q
    unfold updateA at h
    by_cases h0 : k0 = k
    · rw [if_pos h0] at h
      subst h0
      rcases List.mem_cons.1 h with h1 | h1
      · exact Or.inr ⟨v0, List.mem_cons_self _ _, h1⟩
      · exact Or.inl (List.mem_cons_of_mem _ h1)
    · rw [if_neg h0] at h
      rcases List.mem_cons.1 h with h1 | h1
      · exact Or.inl (h1 ▸ List.mem_cons_self _ _)
      · rcases ih h1 with h2 | ⟨v, hv, hp⟩
        · exact Or.inl (List.mem_cons_of_mem _ h2)
        · exact Or.inr ⟨v, List.mem_cons_of_mem _ hv, hp⟩

theorem contractStep_inv {nameMap : List (List Char × String)}
    {acc : List (List Char × Customer) × List Contract} {row : ContractRow}
    (h : ∀ p ∈ acc.1, p.2.total_contract_value = sumActive p.2.contracts) :
    ∀ p ∈ (contractStep nameMap acc row).1,
      p.2.total_contract_value = sumActive p.2.contracts := by
  unfold contractStep
  split
  · exact h
  · cases hm : (matchCustomer nameMap
        ((clean_company_name (pyStripStr row.customer)).toList)).map (fun x => x.2.1) with
    | none =>
      simp only [hm]
      exact h
    | some cid =>
      simp only [hm]
      intro p hp
      rcases mem_updateA hp with h1 | ⟨v, hv, hp2⟩
      · exact h p h1
      · rw [hp2]
        exact attachContract_inv (h (cid.toList, v) hv) _

theorem foldl_contractStep_inv (nameMap : List (List Char × String)) (rows : List ContractRow) :
    ∀ acc : List (List Char × Customer) × List Contract,
      (∀ p ∈ acc.1, p.2.total_contract_value = sumActive p.2.contracts) →
      ∀ p ∈ (rows.foldl (contractStep nameMap) acc).1,
        p.2.total_contract_value = sumActive p.2.contracts := by
  induction rows with
  | nil => intro acc h; simpa using h
  | cons r rest ih =>
    intro acc h
    rw [List.foldl_cons]
    exact ih _ (contractStep_inv h)

theorem load_customers_inv (crows : List CustomerRow) :
    ∀ p ∈ (load_customers crows).1,
      p.2.total_contract_value = sumActive p.2.contracts := by
  induction crows using List.reverseRecOn with
  | nil => intro p hp; exact absurd hp (by simp [load_customers])
  | append_singleton l r ih =>
    intro p hp
    unfold load_customers at ih hp
    rw [List.foldl_append] at hp
    simp only [List.foldl_cons, List.foldl_nil] at hp
    by_cases hv : validCustomerRow r = true
    · rw [loadCustomersStep_valid _ _ hv] at hp
      rcases mem_insertOver hp with h1 | h1
      · exact ih p h1
      · rw [h1]
        simp [mkCustomer, sumActive]
    · rw [loadCustomersStep_invalid _ _ (by simpa using hv)] at hp
      exact ih p hp

/-- C2: after a full run, every customer in the final customer set has
`total_contract_value` equal to the sum of `contract_value` over exactly
the active contracts in its linked contract list; unmatched contracts
(never attached) and expired contracts (attached but filtered out)
contribute nothing. -/
theorem c2_aggregate_invariant (crows : List CustomerRow) (rows : List ContractRow)
    (p : List Char × Customer)
    (hp : p ∈ (load_and_match_contracts (load_customers crows).1
      (load_customers crows).2 rows).1) :
    p.2.total_contract_value = sumActive p.2.contracts := by
  unfold load_and_match_contracts at hp
  simp only [List.mem_map] at hp
  obtain ⟨q, hq, hpq⟩ := hp
  have := foldl_contractStep_inv (load_customers crows).2 rows
    ((load_customers crows).1, []) (load_customers_inv crows) q hq
  rw [← hpq]
  simpa using this


/-- The contract record produced by the concrete witness run of C2. -/
def witContract : Contract :=
  { customer_name_in_contract := "A"
    contract_name := "N"
    contract_number := "1"
    contract_value := 10
    contract_status := "active"
    contract_email := ""
    contract_notes := ""
    matched_customer_id := some "1" }

/-- The customer record produced by the concrete witness run of C2. -/
def witCustomer : Customer :=
  { simpro_customer_id := "1"
    company_name := "A"
    company_name_cleaned := "A"
    email := ""
    is_contract_customer := false
    contracts := [witContract]
    total_contract_value := 10
    active_contract_count := 1
    has_active_contracts := true
    service_tier := "CORE"
    latest_contract_email := "" }

theorem c2_witness :
    ((['1'] : List Char), witCustomer) ∈
      (load_and_match_contracts (load_customers [⟨"1", "A", "", ""⟩]).1
        (load_customers [⟨"1", "A", "", ""⟩]).2 [⟨"A", "N", "1", "10", "Active", "", ""⟩]).1 ∧
    witCustomer.total_contract_value = sumActive witCustomer.contracts := by
  have hm : ((['1'] : List Char), witCustomer) ∈
      (load_and_match_contracts (load_customers [⟨"1", "A", "", ""⟩]).1
        (load_customers [⟨"1", "A", "", ""⟩]).2 [⟨"A", "N", "1", "10", "Active", "", ""⟩]).1 := by
    simp +decide [witCustomer, witContract, load_and_match_contracts, contractStep, skipRow,
      mkContract, attachContract,
      updateA, matchCustomer, lookupA, fuzzyLoop, load_customers, loadCustomersStep, insertOver,
      mkCustomer, clean_company_name, cleanList, subCORP, subINC, subLLC, subCO, subW,
      removeParens, pyStrip, pyStripStr, collapseWs, pySplit, joinSp, corpRepl, incRepl,
      llcRepl, coRepl, asciiLowerStr, parse_contract_value, pyFloat, pyIntPart, pyFracPart,
      pySign, pyFrac, pyExp, digitsToNat, substrB, determine_service_tier, List.asString]
  exact ⟨hm, c2_aggregate_invariant _ _ _ hm⟩

/-! ## Claim C1: the cleaning pipeline -/

/-- The expansion step as claim C1 words it: at a word boundary, the
dotted form `W.` is expanded with its period absorbed whenever the
period is followed by a non-word character or the end of the string;
otherwise the bare form `W` is expanded when it stands on word
boundaries.  This differs from the code's scanner `subW` only in which
side of the period-handling keeps the period. -/
def specSubW (a : Char) (as r : List Char) : Bool → List Char → List Char
  | _,  [] => []
  | pw, c :: s =>
    if pw = false ∧ (a :: as).isPrefixOf (c :: s) = true then
      if (s.drop as.length).headD ' ' = '.' ∧
          isWordChar (((s.drop as.length).drop 1).headD ' ') = false then
        r ++ specSubW a as r false ((s.drop as.length).drop 1)
      else if s.drop as.length ≠ [] ∧ (s.drop as.length).headD ' ' ≠ '.' ∧
          isWordChar ((s.drop as.length).headD ' ') = true then
        c :: specSubW a as r (isWordChar c) s
      else
        r ++ specSubW a as r true (s.drop as.length)
    else c :: specSubW a as r (isWordChar c) s
  termination_by _ s => s.length
  decreasing_by
  all_goals simp_wf
  all_goals omega

/-- The cleaning pipeline exactly as claim C1 words it: trim and
upper-case, delete parenthesized substrings, expand the abbreviations on
whole-word boundaries (`specSubW`, the claim's reading in which `W.`
becomes `R` with the period absorbed), collapse whitespace runs and
trim; empty input yields the empty string. -/
def cleanSpec (s : String) : String :=
  if s = "" then ""
  else
    (pyStrip (collapseWs
      (specSubW 'C' ['O'] coRepl false
        (specSubW 'L' ['L','C'] llcRepl false
          (specSubW 'I' ['N','C'] incRepl false
            (specSubW 'C' ['O','R','P'] corpRepl false
              (removeParens (pyStrip (s.toList.map Char.toUpper))))))))).asString

theorem mem_of_mem_removeParens {c : Char} {l : List Char} (h : c ∈ removeParens l) : c ∈ l := by
  induction l using removeParens.induct with
  | case1 => exact absurd h (by simp [removeParens])
  | case2 c0 s hc ih =>
    rw [removeParens, if_pos hc] at h
    have h1 := ih h
    have h2 := (List.drop_sublist 1 (s.dropWhile (fun d => !(d = ')')))).subset h1
    have h3 := (List.dropWhile_sublist (l := s) (fun d => !(d = ')'))).subset h2
    exact List.mem_cons_of_mem _ h3
  | case3 c0 s hc ih =>
    rw [removeParens, if_neg hc] at h
    rcases List.mem_cons.1 h with h1 | h1
    · exact h1 ▸ List.mem_cons_self _ _
    · exact List.mem_cons_of_mem _ (ih h1)

theorem mem_subW {a : Char} {as r : List Char} {c' : Char} :
    ∀ {pw : Bool} {s : List Char}, c' ∈ subW a as r pw s → c' ∈ s ∨ c' ∈ r := by
  intro pw s
  induction pw, s using subW.induct a as r with
  | case1 x => intro h; exact absurd h (by simp [subW])
  | case2 pw c s hfire hdot ih =>
    intro h
    rw [subW, if_pos hfire, if_pos hdot] at h
    rcases List.mem_append.1 h with h1 | h1
    · exact Or.inr h1
    · rcases ih h1 with h2 | h2
      · have := (List.drop_sublist as.length s).subset ((List.drop_sublist 1 _).subset h2)
        exact Or.inl (List.mem_cons_of_mem _ this)
      · exact Or.inr h2
  | case3 pw c s hfire hdot hmid ih =>
    intro h
    rw [subW, if_pos hfire, if_neg hdot, if_pos hmid] at h
    rcases List.mem_cons.1 h with h1 | h1
    · exact Or.inl (h1 ▸ List.mem_cons_self _ _)
    · rcases ih h1 with h2 | h2
      · exact Or.inl (List.mem_cons_of_mem _ h2)
      · exact Or.inr h2
  | case4 pw c s hfire hdot hmid ih =>
    intro h
    rw [subW, if_pos hfire, if_neg hdot, if_neg hmid] at h
    rcases List.mem_append.1 h with h1 | h1
    · exact Or.inr h1
    · rcases ih h1 with h2 | h2
      · exact Or.inl (List.mem_cons_of_mem _ ((List.drop_sublist as.length s).subset h2))
      · exact Or.inr h2
  | case5 pw c s hfire ih =>
    intro h
    rw [subW, if_neg hfire] at h
    rcases List.mem_cons.1 h with h1 | h1
    · exact Or.inl (h1 ▸ List.mem_cons_self _ _)
    · rcases ih h1 with h2 | h2
      · exact Or.inl (List.mem_cons_of_mem _ h2)
      · exact Or.inr h2

theorem charOfNat_toNat (n : Nat) (h : n < 55296) : (Char.ofNat n).toNat = n := by
  have hv : n.isValidChar := Or.inl (by omega)
  simp only [Char.ofNat, dif_pos hv]
  rfl

theorem toUpper_toNat (c : Char) :
    c.toUpper.toNat = if 97 ≤ c.toNat ∧ c.toNat ≤ 122 then c.toNat - 32 else c.toNat := by
  simp only [Char.toUpper]
  split
  · next h => rw [charOfNat_toNat _ (by omega)]
  · rfl

theorem toNat_inj_char {c d : Char} (h : c.toNat = d.toNat) : c = d := by
  calc c = Char.ofNat c.toNat := (Char.ofNat_toNat _).symm
    _ = Char.ofNat d.toNat := by rw [h]
    _ = d := Char.ofNat_toNat _

theorem toUpper_eq_dot {c : Char} (h : c.toUpper = '.') : c = '.' := by
  have h1 := toUpper_toNat c
  rw [h] at h1
  have h46 : ('.' : Char).toNat = 46 := by decide
  rw [h46] at h1
  by_cases hc : 97 ≤ c.toNat ∧ c.toNat ≤ 122
  · rw [if_pos hc] at h1; omega
  · rw [if_neg hc] at h1
    exact toNat_inj_char (by rw [← h1, h46])

theorem headD_eq_dot_mem {t : List Char} (h : t.headD ' ' = '.') : ('.' : Char) ∈ t := by
  cases t with
  | nil => exact absurd h (by decide)
  | cons x xs => exact h ▸ List.mem_cons_self _ _

theorem subW_eq_specSubW {a : Char} {as r : List Char} :
    ∀ {pw : Bool} {s : List Char}, ('.' : Char) ∉ s →
      subW a as r pw s = specSubW a as r pw s := by
  intro pw s
  induction pw, s using subW.induct a as r with
  | case1 x => intro _; simp [subW, specSubW]
  | case2 pw c s hfire hdot ih =>
    intro hnd
    exfalso
    have := headD_eq_dot_mem hdot.1
    have := (List.drop_sublist as.length s).subset this
    exact hnd (List.mem_cons_of_mem _ this)
  | case3 pw c s hfire hdot hmid ih =>
    intro hnd
    have hnds : ('.' : Char) ∉ s := fun hm => hnd (List.mem_cons_of_mem _ hm)
    have hd2 : ¬((List.drop as.length s).headD ' ' = '.' ∧
        isWordChar ((List.drop 1 (List.drop as.length s)).headD ' ') = false) := fun hx =>
      hnd (List.mem_cons_of_mem _
        ((List.drop_sublist as.length s).subset (headD_eq_dot_mem hx.1)))
    rw [subW, specSubW, if_pos hfire, if_pos hfire, if_neg hdot, if_neg hd2,
      if_pos hmid, if_pos hmid, ih hnds]
  | case4 pw c s hfire hdot hmid ih =>
    intro hnd
    have hndt : ('.' : Char) ∉ s.drop as.length := fun hm =>
      hnd (List.mem_cons_of_mem _ ((List.drop_sublist as.length s).subset hm))
    have hd2 : ¬((List.drop as.length s).headD ' ' = '.' ∧
        isWordChar ((List.drop 1 (List.drop as.length s)).headD ' ') = false) := fun hx =>
      hndt (headD_eq_dot_mem hx.1)
    rw [subW, specSubW, if_pos hfire, if_pos hfire, if_neg hdot, if_neg hd2,
      if_neg hmid, if_neg hmid, ih hndt]
  | case5 pw c s hfire ih =>
    intro hnd
    have hnds : ('.' : Char) ∉ s := fun hm => hnd (List.mem_cons_of_mem _ hm)
    rw [subW, specSubW, if_neg hfire, if_neg hfire, ih hnds]

/-- C1 (amended): for every raw name string containing no period,
`clean_company_name` is exactly the claim's pipeline: trim and
upper-case, delete parenthesized substrings, expand the legal-suffix
abbreviations on whole-word boundaries, collapse whitespace and trim.
(With periods present, the two differ only in that the code leaves the
period of a dotted abbreviation in place unless a word character
follows it.) -/
theorem c1_clean_pipeline_no_dot (s : String) (h : ('.' : Char) ∉ s.toList) :
    clean_company_name s = cleanSpec s := by
  unfold clean_company_name cleanSpec
  split
  · rfl
  · have h0 : ('.' : Char) ∉ s.toList.map Char.toUpper := by
      intro hm
      obtain ⟨c, hc, hcu⟩ := List.mem_map.1 hm
      exact h ((toUpper_eq_dot hcu) ▸ hc)
    have h1 : ('.' : Char) ∉ pyStrip (s.toList.map Char.toUpper) :=
      fun hm => h0 (mem_of_mem_pyStrip hm)
    have h2 : ('.' : Char) ∉ removeParens (pyStrip (s.toList.map Char.toUpper)) :=
      fun hm => h1 (mem_of_mem_removeParens hm)
    have e1 : subCORP (removeParens (pyStrip (s.toList.map Char.toUpper))) =
        specSubW 'C' ['O','R','P'] corpRepl false
          (removeParens (pyStrip (s.toList.map Char.toUpper))) := subW_eq_specSubW h2
    have h3 : ('.' : Char) ∉ subCORP (removeParens (pyStrip (s.toList.map Char.toUpper))) := by
      intro hm
      rcases mem_subW hm with hx | hx
      · exact h2 hx
      · exact absurd hx (by decide)
    have e2 : subINC (subCORP (removeParens (pyStrip (s.toList.map Char.toUpper)))) =
        specSubW 'I' ['N','C'] incRepl false
          (subCORP (removeParens (pyStrip (s.toList.map Char.toUpper)))) := subW_eq_specSubW h3
    have h4 : ('.' : Char) ∉ subINC (subCORP (removeParens
        (pyStrip (s.toList.map Char.toUpper)))) := by
      intro hm
      rcases mem_subW hm with hx | hx
      · exact h3 hx
      · exact absurd hx (by decide)
    have e3 : subLLC (subINC (subCORP (removeParens (pyStrip (s.toList.map Char.toUpper))))) =
        specSubW 'L' ['L','C'] llcRepl false
          (subINC (subCORP (removeParens (pyStrip (s.toList.map Char.toUpper))))) :=
      subW_eq_specSubW h4
    have h5 : ('.' : Char) ∉ subLLC (subINC (subCORP (removeParens
        (pyStrip (s.toList.map Char.toUpper))))) := by
      intro hm
      rcases mem_subW hm with hx | hx
      · exact h4 hx
      · exact absurd hx (by decide)
    have e4 : subCO (subLLC (subINC (subCORP (removeParens
        (pyStrip (s.toList.map Char.toUpper)))))) =
        specSubW 'C' ['O'] coRepl false
          (subLLC (subINC (subCORP (removeParens (pyStrip (s.toList.map Char.toUpper)))))) :=
      subW_eq_specSubW h5
    unfold cleanList
    rw [e1] at e2 e3 e4 ⊢
    rw [e2] at e3 e4 ⊢
    rw [e3] at e4 ⊢
    rw [e4]

/-- Witness for the amended C1 at a concrete period-free input. -/
theorem c1_witness :
    (('.' : Char) ∉ ("Allied Data Corp (East)" : String).toList) ∧
    clean_company_name "Allied Data Corp (East)" = cleanSpec "Allied Data Corp (East)" :=
  ⟨by decide, c1_clean_pipeline_no_dot _ (by decide)⟩


/-- C1 is false as stated: on `"A CORP."` the code produces
`"A CORPORATION."` — the period of a dotted abbreviation survives when
it is not followed by a word character — while the claim's pipeline
(`cleanSpec`) absorbs it and produces `"A CORPORATION"`. -/
theorem c1_counterexample :
    clean_company_name "A CORP." = "A CORPORATION." ∧
    cleanSpec "A CORP." = "A CORPORATION" ∧
    clean_company_name "A CORP." ≠ cleanSpec "A CORP." := by
  have h1 : clean_company_name "A CORP." = "A CORPORATION." := by
    simp +decide [clean_company_name, cleanList, subCORP, subINC, subLLC, subCO, subW,
      removeParens, pyStrip, collapseWs, pySplit, joinSp, corpRepl, incRepl, llcRepl, coRepl]
  have h2 : cleanSpec "A CORP." = "A CORPORATION" := by
    simp +decide [cleanSpec, specSubW,
      removeParens, pyStrip, collapseWs, pySplit, joinSp, corpRepl, incRepl, llcRepl, coRepl]
  refine ⟨h1, h2, ?_⟩
  intro h
  rw [h1, h2] at h
  exact absurd h (by decide)

/-! ### Small facts about characters, prefixes and flags -/

theorem isWordChar_dot : isWordChar '.' = false := by decide

theorem isWordChar_space : isWordChar ' ' = false := by decide

theorem not_word_of_space {c : Char} (h : isSpaceChar c = true) : isWordChar c = false := by
  simp only [isSpaceChar, Bool.or_eq_true, decide_eq_true_eq] at h
  rcases h with ((((h | h) | h) | h) | h) | h <;> subst h <;> decide

/-- The scanner's "previous character is a word character" flag for a
position reached after reading `x`. -/
def prevFlag (x : List Char) : Bool :=
  match x.getLast? with
  | none => false
  | some c => isWordChar c

theorem prevFlag_nil : prevFlag [] = false := rfl

theorem prevFlag_append {x y : List Char} (h : y ≠ []) :
    prevFlag (x ++ y) = prevFlag y := by
  unfold prevFlag
  rw [List.getLast?_append]
  cases hy : y.getLast? with
  | none => exact absurd (List.getLast?_eq_none_iff.1 hy) h
  | some c => simp [hy]

theorem prevFlag_singleton (c : Char) : prevFlag [c] = isWordChar c := rfl

theorem prevFlag_concat (x : List Char) (c : Char) :
    prevFlag (x ++ [c]) = isWordChar c := by
  rw [prevFlag_append (by simp), prevFlag_singleton]

theorem headD_mem {t : List Char} (h : t ≠ []) : t.headD ' ' ∈ t := by
  cases t with
  | nil => exact absurd rfl h
  | cons c s => exact List.mem_cons_self _ _

theorem headD_append_left {u w : List Char} (h : u ≠ []) (d : Char) :
    (u ++ w).headD d = u.headD d := by
  cases u with
  | nil => exact absurd rfl h
  | cons c s => rfl

theorem eq_append_drop_of_isPrefixOf {u y : List Char} (h : u.isPrefixOf y = true) :
    y = u ++ y.drop u.length := by
  obtain ⟨t, ht⟩ := List.isPrefixOf_iff_prefix.1 h
  calc y = u ++ t := ht.symm
    _ = u ++ (u ++ t).drop u.length := by rw [List.drop_left]
    _ = u ++ y.drop u.length := by rw [ht]

theorem isPrefixOf_append_self (u w : List Char) : u.isPrefixOf (u ++ w) = true :=
  List.isPrefixOf_iff_prefix.2 ⟨w, rfl⟩

theorem not_isPrefixOf_append {u w x : List Char} (h1 : u.isPrefixOf w = false)
    (h2 : w.isPrefixOf u = false) : u.isPrefixOf (w ++ x) = false := by
  induction w generalizing u with
  | nil => simp [List.isPrefixOf] at h2
  | cons e w2 ih =>
    cases u with
    | nil => simp [List.isPrefixOf] at h1
    | cons f u2 =>
      simp only [List.cons_append, List.isPrefixOf, Bool.and_eq_false_iff] at h1 h2 ⊢
      rcases h1 with h1 | h1
      · exact Or.inl h1
      · rcases h2 with h2 | h2
        · left
          cases hbe : (f == e)
          · rfl
          · have hfe : f = e := by simpa using hbe
            have : (e == f) = true := by simp [hfe]
            exact absurd this (by simp [h2])
        · exact Or.inr (ih h1 h2)

/-- At a word-character previous position the scanner always copies. -/
theorem subW_copy_true (a : Char) (as r : List Char) (d : Char) (v : List Char) :
    subW a as r true (d :: v) = d :: subW a as r (isWordChar d) v := by
  rw [subW, if_neg]
  intro hx
  exact absurd hx.1 (by simp)

/-! ### No-changing-match predicate -/

/-- Would a fire of `\b(a::as)\.?\b` at this position (with tail `t`
after the matched word) change the string?  The first condition is the
consumed-dot fire (always a change), the second is "no fire at all",
and a bare fire changes the string exactly when the replacement differs
from the word. -/
def fireChanges (a : Char) (as r : List Char) (t : List Char) : Bool :=
  if t.headD ' ' = '.' ∧ isWordChar ((t.drop 1).headD ' ') = true then true
  else if t ≠ [] ∧ t.headD ' ' ≠ '.' ∧ isWordChar (t.headD ' ') = true then false
  else decide (r ≠ a :: as)

/-- `s` contains no position at which the substitution
`\b(a::as)\.?\b → r` would change it. -/
def NoChQ (a : Char) (as r : List Char) (s : List Char) : Prop :=
  ∀ x y, s = x ++ y → prevFlag x = false → (a :: as).isPrefixOf y = true →
    fireChanges a as r (y.drop (as.length + 1)) = false

theorem fireChanges_of_head_word {a : Char} {as r t : List Char} (hne : t ≠ [])
    (hw : isWordChar (t.headD ' ') = true) : fireChanges a as r t = false := by
  have hnd : t.headD ' ' ≠ '.' := by
    intro hd
    rw [hd] at hw
    exact absurd hw (by decide)
  unfold fireChanges
  rw [if_neg (fun hx => hnd hx.1), if_pos ⟨hne, hnd, hw⟩]

theorem fireChanges_self {a : Char} {as t : List Char}
    (h1 : ¬(t.headD ' ' = '.' ∧ isWordChar ((t.drop 1).headD ' ') = true)) :
    fireChanges a as (a :: as) t = false := by
  unfold fireChanges
  rw [if_neg h1]
  split
  · rfl
  · simp

/-- The head of the scan of a word-headed string is a word character
(the head is either copied or replaced by `r`, whose head is a word
character). -/
theorem headD_word_subW (b : Char) (bs r2 : List Char) (hb : isWordChar b = true)
    (hr2 : r2 ≠ []) (hrw : ∀ c ∈ r2, isWordChar c = true) {d : Char} {v : List Char}
    (hd : isWordChar d = true) :
    subW b bs r2 false (d :: v) ≠ [] ∧
      isWordChar ((subW b bs r2 false (d :: v)).headD ' ') = true := by
  rw [subW]
  split
  · split
    · refine ⟨by simp [hr2], ?_⟩
      rw [headD_append_left hr2]
      exact hrw _ (headD_mem hr2)
    · split
      · exact ⟨by simp, hd⟩
      · refine ⟨by simp [hr2], ?_⟩
        rw [headD_append_left hr2]
        exact hrw _ (headD_mem hr2)
  · exact ⟨by simp, hd⟩

/-- If the word cannot start at the head (first characters differ),
the scanner copies the head. -/
theorem subW_copy_of_ne {b : Char} {bs r2 : List Char} {g : Char} {v : List Char}
    (hne : (b == g) = false) (p : Bool) :
    subW b bs r2 p (g :: v) = g :: subW b bs r2 (isWordChar g) v := by
  rw [subW, if_neg]
  intro hx
  have := hx.2
  simp only [List.isPrefixOf] at this
  rw [hne] at this
  exact absurd this (by simp)

/-- Transfer of `fireChanges = false` through a scan of the tail at a
word-character previous position. -/
theorem fireChanges_transfer {a : Char} {as r : List Char} {b : Char} {bs r2 : List Char}
    (hb : isWordChar b = true) {v : List Char}
    (h : fireChanges a as r v = false) :
    fireChanges a as r (subW b bs r2 true v) = false := by
  unfold fireChanges at h
  by_cases h1 : v.headD ' ' = '.' ∧ isWordChar ((v.drop 1).headD ' ') = true
  · rw [if_pos h1] at h
    exact absurd h (by simp)
  · rw [if_neg h1] at h
    by_cases h2 : v ≠ [] ∧ v.headD ' ' ≠ '.' ∧ isWordChar (v.headD ' ') = true
    · obtain ⟨hne, hnd, hw⟩ := h2
      cases v with
      | nil => exact absurd rfl hne
      | cons d v2 =>
        rw [subW_copy_true]
        exact fireChanges_of_head_word (by simp) hw
    · rw [if_neg h2] at h
      have hr : r = a :: as := by simpa using h
      subst hr
      cases v with
      | nil => exact fireChanges_self (by simp [subW])
      | cons d v2 =>
        rw [subW_copy_true]
        by_cases hd : d = '.'
        · subst hd
          rw [isWordChar_dot]
          apply fireChanges_self
          intro hx
          have hx2 := hx.2
          simp only [List.drop_succ_cons, List.drop_zero] at hx2
          have hnw : isWordChar (v2.headD ' ') = false := by
            by_cases hv2 : v2 = []
            · subst hv2; decide
            · have h1x := h1
              push_neg at h1x
              have := h1x (by simp)
              simpa using this
          cases v2 with
          | nil => exact absurd (by simpa [subW] using hx2) (by decide : ¬ isWordChar ' ' = true)
          | cons g v3 =>
            have hg : isWordChar g = false := by simpa using hnw
            have hbg : (b == g) = false := by
              cases hbg2 : (b == g)
              · rfl
              · have : b = g := by simpa using hbg2
                rw [this] at hb
                exact absurd hb (by simp [hg])
            rw [subW_copy_of_ne hbg] at hx2
            simp only [List.headD_cons] at hx2
            exact absurd hx2 (by simp [hg])
        · have hdw : isWordChar d = false := by
            by_cases hv : isWordChar d = true
            · exfalso
              exact h2 ⟨by simp, by simpa using hd, by simpa using hv⟩
            · simpa using hv
          apply fireChanges_self
          intro hx
          exact hd (by simpa using hx.1)

/-- A run of word characters at a word-previous position is copied
verbatim: if it is a prefix of the scan output it is a prefix of the
input, and the scan splits around it. -/
theorem subW_copy_word {b : Char} {bs r2 : List Char} :
    ∀ (u v : List Char), (∀ c ∈ u, isWordChar c = true) →
      u.isPrefixOf (subW b bs r2 true v) = true →
      ∃ v2, v = u ++ v2 ∧ subW b bs r2 true v = u ++ subW b bs r2 true v2 := by
  intro u
  induction u with
  | nil => exact fun v _ _ => ⟨v, rfl, rfl⟩
  | cons c u2 ih =>
    intro v hw hpre
    cases v with
    | nil => simp [subW, List.isPrefixOf] at hpre
    | cons d v2 =>
      rw [subW_copy_true] at hpre ⊢
      simp only [List.isPrefixOf, Bool.and_eq_true, beq_iff_eq] at hpre
      obtain ⟨hcd, hpre2⟩ := hpre
      subst hcd
      have hcw : isWordChar c = true := hw c (List.mem_cons_self _ _)
      rw [hcw] at hpre2 ⊢
      obtain ⟨v3, hv3, heq⟩ := ih v2 (fun x hx => hw x (List.mem_cons_of_mem _ hx)) hpre2
      exact ⟨v3, by rw [hv3]; rfl, by rw [heq]; rfl⟩

/-- From `NoChQ` the scan is the identity. -/
theorem subW_eq_self_of_NoChQ {a : Char} {as r : List Char}
    (HW : ∀ c ∈ (a :: as), isWordChar c = true) {s : List Char} (H : NoChQ a as r s) :
    subW a as r false s = s := by
  suffices hgen : ∀ n (y : List Char), y.length = n → ∀ x, s = x ++ y →
      subW a as r (prevFlag x) y = y by
    exact hgen s.length s rfl [] rfl
  intro n
  induction n using Nat.strong_induction_on with
  | _ n ih =>
    intro y hlen x hs
    cases y with
    | nil => simp [subW]
    | cons c v =>
      simp only [List.length_cons] at hlen
      by_cases hp : prevFlag x = true
      · rw [subW, if_neg (fun hx => by rw [hp] at hx; exact absurd hx.1 (by simp))]
        have hrec := ih (v.length) (by omega) v rfl (x ++ [c]) (by rw [hs]; simp)
        rw [prevFlag_concat] at hrec
        rw [hrec]
      · have hpf : prevFlag x = false := by simpa using hp
        by_cases hpre : (a :: as).isPrefixOf (c :: v) = true
        · have hfc := H x (c :: v) hs hpf hpre
          rw [List.drop_succ_cons] at hfc
          unfold fireChanges at hfc
          by_cases h1 : (v.drop as.length).headD ' ' = '.' ∧
              isWordChar (((v.drop as.length).drop 1).headD ' ') = true
          · rw [if_pos h1] at hfc
            exact absurd hfc (by simp)
          · rw [if_neg h1] at hfc
            by_cases h2 : v.drop as.length ≠ [] ∧ (v.drop as.length).headD ' ' ≠ '.' ∧
                isWordChar ((v.drop as.length).headD ' ') = true
            · rw [subW, if_pos ⟨hpf, hpre⟩, if_neg h1, if_pos h2]
              have hrec := ih (v.length) (by omega) v rfl (x ++ [c]) (by rw [hs]; simp)
              rw [prevFlag_concat] at hrec
              rw [hrec]
            · rw [if_neg h2] at hfc
              have hr : r = a :: as := by simpa using hfc
              subst hr
              have hdecomp : c :: v = (a :: as) ++ v.drop as.length := by
                have h0 := eq_append_drop_of_isPrefixOf hpre
                simpa using h0
              rw [subW, if_pos ⟨hpf, hpre⟩, if_neg h1, if_neg h2]
              have hlast : prevFlag (x ++ (a :: as)) = true := by
                rw [prevFlag_append (by simp)]
                unfold prevFlag
                cases hgl : (a :: as).getLast? with
                | none => simp at hgl
                | some cl =>
                  simp only []
                  exact HW cl (List.mem_of_mem_getLast? (by rw [hgl]; simp))
              have hrec := ih ((v.drop as.length).length)
                (by simp only [List.length_drop]; omega) (v.drop as.length) rfl
                (x ++ (a :: as)) (by rw [hs, hdecomp]; simp)
              rw [hlast] at hrec
              rw [hrec]
              exact hdecomp.symm
        · rw [subW, if_neg (fun hx => absurd hx.2 (by simp [hpre]))]
          have hrec := ih (v.length) (by omega) v rfl (x ++ [c]) (by rw [hs]; simp)
          rw [prevFlag_concat] at hrec
          rw [hrec]

theorem prevFlag_eq_getLast {x : List Char} (h : x ≠ []) :
    prevFlag x = isWordChar (x.getLast h) := by
  unfold prevFlag
  rw [List.getLast?_eq_getLast x h]

theorem headD_dot_decomp {t : List Char} (h : t.headD ' ' = '.') :
    t = '.' :: t.drop 1 := by
  cases t with
  | nil => exact absurd h (by decide)
  | cons d u => rw [List.headD_cons] at h; rw [h]; rfl

/-- Every suffix of a scan output that starts at a non-word-previous
position is the scan (at previous flag `false`) of a suffix of the
input starting at a non-word-previous position. -/
theorem subW_out_split {a : Char} {as r : List Char}
    (HW : ∀ c ∈ (a :: as), isWordChar c = true) (HRne : r ≠ [])
    (HRw : ∀ c ∈ r, isWordChar c = true) :
    ∀ n (t : List Char), t.length = n → ∀ (p : Bool) (x y : List Char),
      subW a as r p t = x ++ y → (x = [] → p = false) → prevFlag x = false →
      ∃ x2 y2, t = x2 ++ y2 ∧ y = subW a as r false y2 ∧ (x2 = [] → x = []) ∧
        prevFlag x2 = false := by
  intro n
  induction n using Nat.strong_induction_on with
  | _ n ih =>
    intro t hlen p x y hout hxp hxf
    by_cases hx0 : x = []
    · subst hx0
      rw [List.nil_append] at hout
      rw [hxp rfl] at hout
      exact ⟨[], t, rfl, hout.symm, fun _ => rfl, rfl⟩
    cases t with
    | nil =>
      rw [subW] at hout
      obtain ⟨hx, hy⟩ := List.append_eq_nil.1 hout.symm
      exact absurd hx hx0
    | cons c s =>
      simp only [List.length_cons] at hlen
      by_cases hfire : p = false ∧ (a :: as).isPrefixOf (c :: s) = true
      · have hdec : c :: s = (a :: as) ++ s.drop as.length := by
          simpa using eq_append_drop_of_isPrefixOf hfire.2
        by_cases h1 : (s.drop as.length).headD ' ' = '.' ∧
            isWordChar (((s.drop as.length).drop 1).headD ' ') = true
        · -- consumed-dot fire
          rw [subW, if_pos hfire, if_pos h1] at hout
          rcases List.append_eq_append_iff.1 hout with ⟨x3, hx3, hOy⟩ | ⟨c2, hrx, hy⟩
          · by_cases hx3e : x3 = []
            · subst hx3e
              rw [List.append_nil] at hx3
              subst hx3
              rw [prevFlag_eq_getLast HRne] at hxf
              exact absurd (HRw _ (List.getLast_mem HRne)) (by simp [hxf])
            · have hpfx3 : prevFlag x3 = false := by
                rw [hx3, prevFlag_append hx3e] at hxf
                exact hxf
              have hlt : ((s.drop as.length).drop 1).length < n := by
                simp only [List.length_drop]
                omega
              obtain ⟨x2, y2, hu, hy2, himp, hpf2⟩ := ih _ hlt _ rfl false x3 y hOy
                (fun _ => rfl) hpfx3
              have hx2ne : x2 ≠ [] := fun h => hx3e (himp h)
              refine ⟨(a :: as) ++ '.' :: x2, y2, ?_, hy2, by simp, ?_⟩
              · rw [hdec, headD_dot_decomp h1.1, hu]
                simp
              · rw [prevFlag_append (by simp : ('.' :: x2 : List Char) ≠ []),
                  show ('.' :: x2 : List Char) = ['.'] ++ x2 from rfl,
                  prevFlag_append hx2ne]
                exact hpf2
          · rw [prevFlag_eq_getLast hx0] at hxf
            have hmem : x.getLast hx0 ∈ r := by
              rw [hrx]
              exact List.mem_append_left _ (List.getLast_mem hx0)
            exact absurd (HRw _ hmem) (by simp [hxf])
        · by_cases h2 : s.drop as.length ≠ [] ∧ (s.drop as.length).headD ' ' ≠ '.' ∧
              isWordChar ((s.drop as.length).headD ' ') = true
          · -- blocked: the head is copied
            rw [subW, if_pos hfire, if_neg h1, if_pos h2] at hout
            cases x with
            | nil => exact absurd rfl hx0
            | cons c0 x4 =>
              rw [List.cons_append] at hout
              injection hout with hc0 hout2
              subst hc0
              have hp4 : x4 = [] → isWordChar c = false := by
                intro h4
                subst h4
                rw [prevFlag_singleton] at hxf
                exact hxf
              have hpfx4 : prevFlag x4 = false := by
                by_cases h4 : x4 = []
                · subst h4; rfl
                · rw [show (c :: x4 : List Char) = [c] ++ x4 from rfl,
                    prevFlag_append h4] at hxf
                  exact hxf
              obtain ⟨x2, y2, hs2, hy2, himp, hpf2⟩ := ih s.length (by omega) s rfl
                (isWordChar c) x4 y hout2 (fun h4 => hp4 h4) hpfx4
              refine ⟨c :: x2, y2, by rw [hs2]; rfl, hy2, by simp, ?_⟩
              by_cases hx2e : x2 = []
              · subst hx2e
                rw [prevFlag_singleton]
                exact hp4 (himp rfl)
              · rw [show (c :: x2 : List Char) = [c] ++ x2 from rfl, prevFlag_append hx2e]
                exact hpf2
          · -- bare-word fire
            rw [subW, if_pos hfire, if_neg h1, if_neg h2] at hout
            rcases List.append_eq_append_iff.1 hout with ⟨x3, hx3, hOy⟩ | ⟨c2, hrx, hy⟩
            · by_cases hx3e : x3 = []
              · subst hx3e
                rw [List.append_nil] at hx3
                subst hx3
                rw [prevFlag_eq_getLast HRne] at hxf
                exact absurd (HRw _ (List.getLast_mem HRne)) (by simp [hxf])
              · have hpfx3 : prevFlag x3 = false := by
                  rw [hx3, prevFlag_append hx3e] at hxf
                  exact hxf
                have hlt : (s.drop as.length).length < n := by
                  simp only [List.length_drop]
                  omega
                obtain ⟨x2, y2, hu, hy2, himp, hpf2⟩ := ih _ hlt _ rfl true x3 y hOy
                  (fun h3 => absurd h3 hx3e) hpfx3
                have hx2ne : x2 ≠ [] := fun h => hx3e (himp h)
                refine ⟨(a :: as) ++ x2, y2, ?_, hy2, by simp, ?_⟩
                · rw [hdec, hu]
                  simp
                · rw [prevFlag_append hx2ne]
                  exact hpf2
            · rw [prevFlag_eq_getLast hx0] at hxf
              have hmem : x.getLast hx0 ∈ r := by
                rw [hrx]
                exact List.mem_append_left _ (List.getLast_mem hx0)
              exact absurd (HRw _ hmem) (by simp [hxf])
      · -- no fire: the head is copied
        rw [subW, if_neg hfire] at hout
        cases x with
        | nil => exact absurd rfl hx0
        | cons c0 x4 =>
          rw [List.cons_append] at hout
          injection hout with hc0 hout2
          subst hc0
          have hp4 : x4 = [] → isWordChar c = false := by
            intro h4
            subst h4
            rw [prevFlag_singleton] at hxf
            exact hxf
          have hpfx4 : prevFlag x4 = false := by
            by_cases h4 : x4 = []
            · subst h4; rfl
            · rw [show (c :: x4 : List Char) = [c] ++ x4 from rfl,
                prevFlag_append h4] at hxf
              exact hxf
          obtain ⟨x2, y2, hs2, hy2, himp, hpf2⟩ := ih s.length (by omega) s rfl
            (isWordChar c) x4 y hout2 (fun h4 => hp4 h4) hpfx4
          refine ⟨c :: x2, y2, by rw [hs2]; rfl, hy2, by simp, ?_⟩
          by_cases hx2e : x2 = []
          · subst hx2e
            rw [prevFlag_singleton]
            exact hp4 (himp rfl)
          · rw [show (c :: x2 : List Char) = [c] ++ x2 from rfl, prevFlag_append hx2e]
            exact hpf2

theorem bool_false_of_not {x : Bool} (h : ¬ x = true) : x = false := by
  cases x
  · rfl
  · exact absurd rfl h

theorem drop_append_small {u w : List Char} {n : Nat} (h : n ≤ u.length) :
    (u ++ w).drop n = u.drop n ++ w := by
  induction u generalizing n with
  | nil =>
    simp only [List.length_nil, Nat.le_zero] at h
    subst h
    simp
  | cons c u2 ih =>
    cases n with
    | zero => simp
    | succ m =>
      simp only [List.cons_append, List.drop_succ_cons]
      exact ih (by simpa using h)

/-- `NoChQ` for the substitution `\b(a::as)\.?\b → r` is preserved by
running the substitution `\b(b::bs)\.?\b → r2`, provided the
replacement `r2` does not overlap the word `a :: as` in a way that can
manufacture a new changing match. -/
theorem NoChQ_preserved {a : Char} {as r : List Char} (b : Char) (bs r2 : List Char)
    (HW : ∀ c ∈ (a :: as), isWordChar c = true)
    (HW2 : ∀ c ∈ (b :: bs), isWordChar c = true)
    (HR2ne : r2 ≠ []) (HR2w : ∀ c ∈ r2, isWordChar c = true)
    (Hov1 : (a :: as).isPrefixOf r2 = true →
      (as.length + 1 < r2.length ∨ (r2 = a :: as ∧ r = a :: as)))
    (Hov2 : r2.isPrefixOf (a :: as) = true → r2 = a :: as)
    {t : List Char} (H : NoChQ a as r t) :
    NoChQ a as r (subW b bs r2 false t) := by
  intro x y hsplit hprev hpref
  obtain ⟨x2, y2, ht, hy, himp, hpf2⟩ := subW_out_split HW2 HR2ne HR2w t.length t rfl
    false x y hsplit (fun _ => rfl) hprev
  have hb : isWordChar b = true := HW2 b (List.mem_cons_self _ _)
  cases y2 with
  | nil =>
    rw [subW] at hy
    subst hy
    simp [List.isPrefixOf] at hpref
  | cons c v =>
    have hfireFinish : ∀ X : List Char, y = r2 ++ X →
        (r2 = a :: as ∧ r = a :: as → fireChanges a as r X = false) →
        fireChanges a as r (y.drop (as.length + 1)) = false := by
      intro X hyX hXself
      by_cases hpr : (a :: as).isPrefixOf r2 = true
      · rcases Hov1 hpr with hlt | hself
        · rw [hyX, drop_append_small (by omega)]
          have hdne : r2.drop (as.length + 1) ≠ [] := by
            intro hnil
            have := congrArg List.length hnil
            simp only [List.length_drop, List.length_nil] at this
            omega
          apply fireChanges_of_head_word (by simp [hdne])
          rw [headD_append_left hdne]
          exact HR2w _ ((List.drop_sublist _ _).subset (headD_mem hdne))
        · rw [hyX, hself.1, List.drop_left' (by simp)]
          exact hXself hself
      · by_cases hpr2 : r2.isPrefixOf (a :: as) = true
        · have h0 := Hov2 hpr2
          rw [h0] at hpr
          have hrefl : (a :: as).isPrefixOf (a :: as) = true := by
            have h1 := isPrefixOf_append_self (a :: as) []
            simpa using h1
          exact absurd hrefl hpr
        · exfalso
          rw [hyX] at hpref
          rw [not_isPrefixOf_append (bool_false_of_not hpr) (bool_false_of_not hpr2)] at hpref
          exact absurd hpref (by simp)
    have hcopyFinish : y = c :: subW b bs r2 (isWordChar c) v →
        fireChanges a as r (y.drop (as.length + 1)) = false := by
      intro hyc
      have hac : a = c := by
        rw [hyc] at hpref
        simp only [List.isPrefixOf, Bool.and_eq_true, beq_iff_eq] at hpref
        exact hpref.1
      subst hac
      have haw : isWordChar a = true := HW a (List.mem_cons_self _ _)
      rw [haw] at hyc
      have has : as.isPrefixOf (subW b bs r2 true v) = true := by
        rw [hyc] at hpref
        simp only [List.isPrefixOf, Bool.and_eq_true, beq_iff_eq] at hpref
        exact hpref.2
      obtain ⟨v2, hv, hYeq⟩ := subW_copy_word as v
        (fun ch hch => HW ch (List.mem_cons_of_mem _ hch)) has
      have hprefin : (a :: as).isPrefixOf (a :: v) = true := by
        rw [hv]
        have h0 := isPrefixOf_append_self (a :: as) v2
        simpa using h0
      have hfc := H x2 (a :: v) ht hpf2 hprefin
      rw [List.drop_succ_cons, hv, List.drop_left' rfl] at hfc
      rw [hyc, hYeq, List.drop_succ_cons, List.drop_left' rfl]
      exact fireChanges_transfer hb hfc
    by_cases hpre2 : (b :: bs).isPrefixOf (c :: v) = true
    · by_cases h1 : (v.drop bs.length).headD ' ' = '.' ∧
          isWordChar (((v.drop bs.length).drop 1).headD ' ') = true
      · -- consumed-dot fire of the second scanner
        rw [subW, if_pos ⟨rfl, hpre2⟩, if_pos h1] at hy
        refine hfireFinish _ hy (fun _ => ?_)
        have hune : (v.drop bs.length).drop 1 ≠ [] := by
          intro hnil
          rw [hnil] at h1
          exact absurd h1.2 (by decide)
        cases hu : (v.drop bs.length).drop 1 with
        | nil => exact absurd hu hune
        | cons d u2 =>
          have hdw : isWordChar d = true := by
            have := h1.2
            rw [hu] at this
            simpa using this
          have hh := headD_word_subW b bs r2 hb HR2ne HR2w (v := u2) hdw
          exact fireChanges_of_head_word hh.1 hh.2
      · by_cases h2 : v.drop bs.length ≠ [] ∧ (v.drop bs.length).headD ' ' ≠ '.' ∧
            isWordChar ((v.drop bs.length).headD ' ') = true
        · -- blocked: head copied; use the premise on the input suffix
          rw [subW, if_pos ⟨rfl, hpre2⟩, if_neg h1, if_pos h2] at hy
          exact hcopyFinish hy
        · -- bare fire of the second scanner
          rw [subW, if_pos ⟨rfl, hpre2⟩, if_neg h1, if_neg h2] at hy
          refine hfireFinish _ hy (fun hself => ?_)
          apply fireChanges_transfer hb
          unfold fireChanges
          rw [if_neg h1, if_neg h2]
          simp [hself.2]
    · -- no fire: head copied
      rw [subW, if_neg (fun hx => absurd hx.2 (by simp [hpre2]))] at hy
      exact hcopyFinish hy

/-- A block of word characters after a word-character position is
copied verbatim (the scanner cannot fire inside it). -/
theorem subW_true_append_word {b : Char} {bs r2 : List Char} :
    ∀ (u v : List Char), (∀ c ∈ u, isWordChar c = true) →
      subW b bs r2 true (u ++ v) = u ++ subW b bs r2 true v := by
  intro u
  induction u with
  | nil => intro v _; rfl
  | cons c u2 ih =>
    intro v hu
    rw [List.cons_append, subW_copy_true, hu c (List.mem_cons_self _ _),
      ih v (fun d hd => hu d (List.mem_cons_of_mem _ hd))]
    rfl

/-- The output of the substitution contains no position at which the
same substitution would change it again. -/
theorem NoChQ_self {a : Char} {as r : List Char}
    (HW : ∀ c ∈ (a :: as), isWordChar c = true)
    (HRne : r ≠ []) (HRw : ∀ c ∈ r, isWordChar c = true)
    (Hov1 : (a :: as).isPrefixOf r = true → (as.length + 1 < r.length ∨ r = a :: as))
    (Hov2 : r.isPrefixOf (a :: as) = true → r = a :: as)
    (t : List Char) :
    NoChQ a as r (subW a as r false t) := by
  intro x y hsplit hprev hpref
  obtain ⟨x2, y2, ht, hy, himp, hpf2⟩ := subW_out_split HW HRne HRw t.length t rfl
    false x y hsplit (fun _ => rfl) hprev
  have ha : isWordChar a = true := HW a (List.mem_cons_self _ _)
  cases y2 with
  | nil =>
    rw [subW] at hy
    subst hy
    simp [List.isPrefixOf] at hpref
  | cons c v =>
    have hfireFinish : ∀ X : List Char, y = r ++ X →
        (r = a :: as → fireChanges a as r X = false) →
        fireChanges a as r (y.drop (as.length + 1)) = false := by
      intro X hyX hXself
      by_cases hpr : (a :: as).isPrefixOf r = true
      · rcases Hov1 hpr with hlt | hself
        · rw [hyX, drop_append_small (by omega)]
          have hdne : r.drop (as.length + 1) ≠ [] := by
            intro hnil
            have := congrArg List.length hnil
            simp only [List.length_drop, List.length_nil] at this
            omega
          apply fireChanges_of_head_word (by simp [hdne])
          rw [headD_append_left hdne]
          exact HRw _ ((List.drop_sublist _ _).subset (headD_mem hdne))
        · rw [hyX]
          rw [show (r ++ X).drop (as.length + 1) = X by
            rw [hself]; exact List.drop_left' (by simp)]
          exact hXself hself
      · by_cases hpr2 : r.isPrefixOf (a :: as) = true
        · have h0 := Hov2 hpr2
          rw [h0] at hpr
          have hrefl : (a :: as).isPrefixOf (a :: as) = true := by
            have h1 := isPrefixOf_append_self (a :: as) []
            simpa using h1
          exact absurd hrefl hpr
        · exfalso
          rw [hyX] at hpref
          rw [not_isPrefixOf_append (bool_false_of_not hpr) (bool_false_of_not hpr2)] at hpref
          exact absurd hpref (by simp)
    by_cases hpre2 : (a :: as).isPrefixOf (c :: v) = true
    · have hac : a = c := by
        simp only [List.isPrefixOf, Bool.and_eq_true, beq_iff_eq] at hpre2
        exact hpre2.1
      subst hac
      have hdec : v = as ++ v.drop as.length := by
        have h0 := eq_append_drop_of_isPrefixOf hpre2
        simp only [List.cons_append, List.length_cons, List.drop_succ_cons] at h0
        exact (List.cons_eq_cons.1 h0).2
      by_cases h1 : (v.drop as.length).headD ' ' = '.' ∧
          isWordChar (((v.drop as.length).drop 1).headD ' ') = true
      · rw [subW, if_pos ⟨rfl, hpre2⟩, if_pos h1] at hy
        refine hfireFinish _ hy (fun _ => ?_)
        have hune : (v.drop as.length).drop 1 ≠ [] := by
          intro hnil
          rw [hnil] at h1
          exact absurd h1.2 (by decide)
        cases hu : (v.drop as.length).drop 1 with
        | nil => exact absurd hu hune
        | cons d u2 =>
          have hdw : isWordChar d = true := by
            have hh := h1.2
            rw [hu] at hh
            simpa using hh
          have hh := headD_word_subW a as r ha HRne HRw (v := u2) hdw
          exact fireChanges_of_head_word hh.1 hh.2
      · by_cases h2 : v.drop as.length ≠ [] ∧ (v.drop as.length).headD ' ' ≠ '.' ∧
            isWordChar ((v.drop as.length).headD ' ') = true
        · rw [subW, if_pos ⟨rfl, hpre2⟩, if_neg h1, if_pos h2] at hy
          rw [ha] at hy
          have hYeq : subW a as r true v = as ++ subW a as r true (v.drop as.length) := by
            conv_lhs => rw [hdec]
            exact subW_true_append_word as _
              (fun ch hch => HW ch (List.mem_cons_of_mem _ hch))
          rw [hy, hYeq, List.drop_succ_cons, List.drop_left' rfl]
          cases ht0 : v.drop as.length with
          | nil => exact absurd ht0 h2.1
          | cons d t02 =>
            have hdw : isWordChar d = true := by
              have hh := h2.2.2
              rw [ht0] at hh
              simpa using hh
            rw [subW_copy_true]
            exact fireChanges_of_head_word (by simp) (by simpa using hdw)
        · rw [subW, if_pos ⟨rfl, hpre2⟩, if_neg h1, if_neg h2] at hy
          refine hfireFinish _ hy (fun hself => ?_)
          apply fireChanges_transfer ha
          unfold fireChanges
          rw [if_neg h1, if_neg h2]
          simp [hself]
    · -- no fire is impossible here unless the word is not a prefix; then
      -- the word cannot be a prefix of the copied output either
      rw [subW, if_neg (fun hx => absurd hx.2 (by simp [hpre2]))] at hy
      exfalso
      have hac : a = c := by
        rw [hy] at hpref
        simp only [List.isPrefixOf, Bool.and_eq_true, beq_iff_eq] at hpref
        exact hpref.1
      subst hac
      rw [ha] at hy
      have has : as.isPrefixOf (subW a as r true v) = true := by
        rw [hy] at hpref
        simp only [List.isPrefixOf, Bool.and_eq_true, beq_iff_eq] at hpref
        exact hpref.2
      obtain ⟨v2, hv, hYeq⟩ := subW_copy_word as v
        (fun ch hch => HW ch (List.mem_cons_of_mem _ hch)) has
      apply hpre2
      rw [hv]
      have h0 := isPrefixOf_append_self (a :: as) v2
      simpa using h0

/-- After the full expansion pass, no CORP-substitution position remains. -/
theorem NoChQ_corp (y : List Char) :
    NoChQ 'C' ['O','R','P'] corpRepl (subCO (subLLC (subINC (subCORP y)))) := by
  have h1 : NoChQ 'C' ['O','R','P'] corpRepl (subCORP y) :=
    NoChQ_self (by decide) (by decide) (by decide) (by decide) (by decide) y
  have h2 : NoChQ 'C' ['O','R','P'] corpRepl (subINC (subCORP y)) :=
    NoChQ_preserved 'I' ['N','C'] incRepl
      (by decide) (by decide) (by decide) (by decide) (by decide) (by decide) h1
  have h3 : NoChQ 'C' ['O','R','P'] corpRepl (subLLC (subINC (subCORP y))) :=
    NoChQ_preserved 'L' ['L','C'] llcRepl
      (by decide) (by decide) (by decide) (by decide) (by decide) (by decide) h2
  exact NoChQ_preserved 'C' ['O'] coRepl
    (by decide) (by decide) (by decide) (by decide) (by decide) (by decide) h3

/-- After the full expansion pass, no INC-substitution position can
change the string. -/
theorem NoChQ_inc (y : List Char) :
    NoChQ 'I' ['N','C'] incRepl (subCO (subLLC (subINC (subCORP y)))) := by
  have h1 : NoChQ 'I' ['N','C'] incRepl (subINC (subCORP y)) :=
    NoChQ_self (by decide) (by decide) (by decide) (by decide) (by decide) _
  have h2 : NoChQ 'I' ['N','C'] incRepl (subLLC (subINC (subCORP y))) :=
    NoChQ_preserved 'L' ['L','C'] llcRepl
      (by decide) (by decide) (by decide) (by decide) (by decide) (by decide) h1
  exact NoChQ_preserved 'C' ['O'] coRepl
    (by decide) (by decide) (by decide) (by decide) (by decide) (by decide) h2

/-- After the full expansion pass, no LLC-substitution position can
change the string. -/
theorem NoChQ_llc (y : List Char) :
    NoChQ 'L' ['L','C'] llcRepl (subCO (subLLC (subINC (subCORP y)))) := by
  have h1 : NoChQ 'L' ['L','C'] llcRepl (subLLC (subINC (subCORP y))) :=
    NoChQ_self (by decide) (by decide) (by decide) (by decide) (by decide) _
  exact NoChQ_preserved 'C' ['O'] coRepl
    (by decide) (by decide) (by decide) (by decide) (by decide) (by decide) h1

/-- After the full expansion pass, no CO-substitution position remains. -/
theorem NoChQ_co (y : List Char) :
    NoChQ 'C' ['O'] coRepl (subCO (subLLC (subINC (subCORP y)))) :=
  NoChQ_self (by decide) (by decide) (by decide) (by decide) (by decide) _

theorem space_ne_dot {c : Char} (h : isSpaceChar c = true) : c ≠ '.' := by
  intro hc
  rw [hc] at h
  exact absurd h (by decide)

theorem isPrefixOf_append_space {w : List Char} (hw : ∀ c ∈ w, isWordChar c = true)
    {sp : Char} (hsp : isWordChar sp = false) :
    ∀ xs ys : List Char, w.isPrefixOf (xs ++ sp :: ys) = w.isPrefixOf xs := by
  induction w with
  | nil => intro xs ys; simp [List.isPrefixOf]
  | cons w0 w2 ih =>
    intro xs ys
    cases xs with
    | nil =>
      simp only [List.nil_append, List.isPrefixOf]
      have hne : (w0 == sp) = false := by
        cases hb : (w0 == sp)
        · rfl
        · have : w0 = sp := by simpa using hb
          rw [this] at hw
          exact absurd (hw sp (List.mem_cons_self _ _)) (by simp [hsp])
      rw [hne]
      rfl
    | cons x xs2 =>
      simp only [List.cons_append, List.isPrefixOf, List.append_eq]
      rw [ih (fun ch hch => hw ch (List.mem_cons_of_mem _ hch)) xs2 ys]

theorem subW_nil (a : Char) (as r : List Char) (p : Bool) : subW a as r p [] = [] := by
  rw [subW]

theorem subW_copy {a : Char} {as r : List Char} {p : Bool} {c : Char} {s : List Char}
    (h : ¬(p = false ∧ (a :: as).isPrefixOf (c :: s) = true)) :
    subW a as r p (c :: s) = c :: subW a as r (isWordChar c) s := by
  conv_lhs => rw [subW]
  rw [if_neg h]

theorem subW_fire_dot {a : Char} {as r : List Char} {p : Bool} {c : Char} {s : List Char}
    (hf : p = false ∧ (a :: as).isPrefixOf (c :: s) = true)
    (h1 : (s.drop as.length).headD ' ' = '.' ∧
      isWordChar (((s.drop as.length).drop 1).headD ' ') = true) :
    subW a as r p (c :: s) = r ++ subW a as r false ((s.drop as.length).drop 1) := by
  conv_lhs => rw [subW]
  rw [if_pos hf, if_pos h1]

theorem subW_fire_block {a : Char} {as r : List Char} {p : Bool} {c : Char} {s : List Char}
    (hf : p = false ∧ (a :: as).isPrefixOf (c :: s) = true)
    (h1 : ¬((s.drop as.length).headD ' ' = '.' ∧
      isWordChar (((s.drop as.length).drop 1).headD ' ') = true))
    (h2 : s.drop as.length ≠ [] ∧ (s.drop as.length).headD ' ' ≠ '.' ∧
      isWordChar ((s.drop as.length).headD ' ') = true) :
    subW a as r p (c :: s) = c :: subW a as r (isWordChar c) s := by
  conv_lhs => rw [subW]
  rw [if_pos hf, if_neg h1, if_pos h2]

theorem subW_fire_bare {a : Char} {as r : List Char} {p : Bool} {c : Char} {s : List Char}
    (hf : p = false ∧ (a :: as).isPrefixOf (c :: s) = true)
    (h1 : ¬((s.drop as.length).headD ' ' = '.' ∧
      isWordChar (((s.drop as.length).drop 1).headD ' ') = true))
    (h2 : ¬(s.drop as.length ≠ [] ∧ (s.drop as.length).headD ' ' ≠ '.' ∧
      isWordChar ((s.drop as.length).headD ' ') = true)) :
    subW a as r p (c :: s) = r ++ subW a as r true (s.drop as.length) := by
  conv_lhs => rw [subW]
  rw [if_pos hf, if_neg h1, if_neg h2]


/-- The scanner distributes over a whitespace separator: no match can
span it, and it resets the previous-character flag. -/
theorem subW_split_space {a : Char} {as r : List Char}
    (HW : ∀ c ∈ (a :: as), isWordChar c = true) {sp : Char} (hsp : isSpaceChar sp = true) :
    ∀ n (xs : List Char), xs.length = n → ∀ (p : Bool) (ys : List Char),
      subW a as r p (xs ++ sp :: ys) = subW a as r p xs ++ sp :: subW a as r false ys := by
  have hspw : isWordChar sp = false := not_word_of_space hsp
  have hspd : sp ≠ '.' := space_ne_dot hsp
  intro n
  induction n using Nat.strong_induction_on with
  | _ n ih =>
    intro xs hlen p ys
    cases xs with
    | nil =>
      rw [List.nil_append, subW_nil, List.nil_append]
      rw [subW_copy, hspw]
      intro hx
      have hpre := hx.2
      simp only [List.isPrefixOf] at hpre
      have hne : (a == sp) = false := by
        cases hb : (a == sp)
        · rfl
        · have ha : a = sp := by simpa using hb
          have hwa := HW a (List.mem_cons_self _ _)
          rw [ha] at hwa
          exact absurd hwa (by simp [hspw])
      rw [hne] at hpre
      exact absurd hpre (by simp)
    | cons x xs2 =>
      simp only [List.length_cons] at hlen
      rw [show ((x :: xs2) ++ sp :: ys : List Char) = x :: (xs2 ++ sp :: ys) from rfl]
      by_cases hfire : p = false ∧ (a :: as).isPrefixOf (x :: xs2) = true
      · have hprefc : (a :: as).isPrefixOf (x :: (xs2 ++ sp :: ys)) = true := by
          rw [show (x :: (xs2 ++ sp :: ys) : List Char) = (x :: xs2) ++ sp :: ys from rfl,
            isPrefixOf_append_space HW hspw]
          exact hfire.2
        have hlenw : as.length ≤ xs2.length := by
          rcases List.isPrefixOf_iff_prefix.1 hfire.2 with ⟨z, hz⟩
          have hlz := congrArg List.length hz
          simp only [List.length_append, List.length_cons] at hlz
          omega
        have hdropc : (xs2 ++ sp :: ys).drop as.length = xs2.drop as.length ++ sp :: ys :=
          drop_append_small hlenw
        cases ht0 : xs2.drop as.length with
        | nil =>
          rw [subW_fire_bare ⟨hfire.1, hprefc⟩ ?c1 ?c2, subW_fire_bare hfire ?c3 ?c4]
          case c1 =>
            rw [hdropc, ht0, List.nil_append]
            intro hx
            exact hspd (by simpa using hx.1)
          case c2 =>
            rw [hdropc, ht0, List.nil_append]
            intro hx
            exact absurd (by simpa using hx.2.2) (by simp [hspw])
          case c3 =>
            rw [ht0]
            intro hx
            exact absurd hx.1 (by decide)
          case c4 =>
            rw [ht0]
            intro hx
            exact absurd hx.1 (by simp)
          rw [hdropc, ht0, List.nil_append, subW_nil, List.append_nil]
          rw [subW_copy (fun hx => by simpa using hx.1), hspw]
        | cons d u =>
          by_cases hd : d = '.'
          · subst hd
            by_cases huw : isWordChar (u.headD ' ') = true
            · have hune : u ≠ [] := by
                intro hnil
                rw [hnil] at huw
                exact absurd huw (by decide)
              rw [subW_fire_dot ⟨hfire.1, hprefc⟩ ?d1, subW_fire_dot hfire ?d2]
              case d1 =>
                rw [hdropc, ht0]
                refine ⟨by simp, ?_⟩
                simp only [List.cons_append, List.drop_succ_cons, List.drop_zero]
                rw [headD_append_left hune]
                exact huw
              case d2 =>
                rw [ht0]
                exact ⟨by simp, by simpa using huw⟩
              rw [hdropc, ht0]
              simp only [List.cons_append, List.drop_succ_cons, List.drop_zero]
              have hult : u.length < n := by
                have := congrArg List.length ht0
                simp only [List.length_drop, List.length_cons] at this
                omega
              rw [ih u.length hult u rfl false ys, List.append_assoc]
            · rw [subW_fire_bare ⟨hfire.1, hprefc⟩ ?e1 ?e2, subW_fire_bare hfire ?e3 ?e4]
              case e1 =>
                rw [hdropc, ht0]
                intro hx
                have := hx.2
                simp only [List.cons_append, List.drop_succ_cons, List.drop_zero] at this
                cases hu : u with
                | nil =>
                  rw [hu] at this
                  simp only [List.nil_append, List.headD_cons] at this
                  exact absurd this (by simp [hspw])
                | cons e u2 =>
                  rw [hu] at this
                  simp only [List.cons_append, List.headD_cons] at this
                  rw [hu] at huw
                  simp only [List.headD_cons] at huw
                  exact huw this
              case e2 =>
                rw [hdropc, ht0]
                intro hx
                exact hx.2.1 (by simp)
              case e3 =>
                rw [ht0]
                intro hx
                exact huw (by simpa using hx.2)
              case e4 =>
                rw [ht0]
                intro hx
                exact hx.2.1 (by simp)
              rw [hdropc, ht0]
              have htlt : (('.' :: u : List Char)).length < n := by
                have := congrArg List.length ht0
                simp only [List.length_drop, List.length_cons] at this
                simp only [List.length_cons]
                omega
              rw [show (('.' :: u : List Char) ++ sp :: ys) = ('.' :: u) ++ sp :: ys from rfl,
                ih _ htlt ('.' :: u) rfl true ys, List.append_assoc]
          · by_cases hdw : isWordChar d = true
            · rw [subW_fire_block ⟨hfire.1, hprefc⟩ ?f1 ?f2, subW_fire_block hfire ?f3 ?f4]
              case f1 =>
                rw [hdropc, ht0]
                intro hx
                exact hd (by simpa using hx.1)
              case f2 =>
                rw [hdropc, ht0]
                exact ⟨by simp, by simpa using hd, by simpa using hdw⟩
              case f3 =>
                rw [ht0]
                intro hx
                exact hd (by simpa using hx.1)
              case f4 =>
                rw [ht0]
                exact ⟨by simp, by simpa using hd, by simpa using hdw⟩
              rw [ih xs2.length (by omega) xs2 rfl (isWordChar x) ys]
              rfl
            · rw [subW_fire_bare ⟨hfire.1, hprefc⟩ ?g1 ?g2, subW_fire_bare hfire ?g3 ?g4]
              case g1 =>
                rw [hdropc, ht0]
                intro hx
                exact hd (by simpa using hx.1)
              case g2 =>
                rw [hdropc, ht0]
                intro hx
                exact hdw (by simpa using hx.2.2)
              case g3 =>
                rw [ht0]
                intro hx
                exact hd (by simpa using hx.1)
              case g4 =>
                rw [ht0]
                intro hx
                exact hdw (by simpa using hx.2.2)
              rw [hdropc, ht0]
              have htlt : ((d :: u : List Char)).length < n := by
                have := congrArg List.length ht0
                simp only [List.length_drop, List.length_cons] at this
                simp only [List.length_cons]
                omega
              rw [ih _ htlt (d :: u) rfl true ys, List.append_assoc]
      · have hfirec : ¬(p = false ∧ (a :: as).isPrefixOf (x :: (xs2 ++ sp :: ys)) = true) := by
          intro hx
          apply hfire
          refine ⟨hx.1, ?_⟩
          have := hx.2
          rw [show (x :: (xs2 ++ sp :: ys) : List Char) = (x :: xs2) ++ sp :: ys from rfl,
            isPrefixOf_append_space HW hspw] at this
          exact this
        rw [subW_copy hfirec, subW_copy hfire,
          ih xs2.length (by omega) xs2 rfl (isWordChar x) ys]
        rfl

theorem head?_dropWhile {p : Char → Bool} :
    ∀ {s : List Char} {c : Char}, (s.dropWhile p).head? = some c → p c = false := by
  intro s
  induction s with
  | nil => intro c h; simp [List.dropWhile] at h
  | cons d s2 ih =>
    intro c h
    rw [List.dropWhile_cons] at h
    split at h
    · exact ih h
    · next hp =>
      injection h with h
      subst h
      simpa using hp

/-- Tokens of `pySplit` are non-empty and whitespace-free. -/
theorem pySplit_wf :
    ∀ (l : List Char) (u : List Char), u ∈ pySplit l →
      u ≠ [] ∧ ∀ c ∈ u, isSpaceChar c = false := by
  intro l
  induction l using pySplit.induct with
  | case1 => intro u hu; simp [pySplit] at hu
  | case2 c s hc ih =>
    intro u hu
    rw [pySplit, if_pos hc] at hu
    exact ih u hu
  | case3 c s hc ih =>
    intro u hu
    rw [pySplit, if_neg hc] at hu
    rcases List.mem_cons.1 hu with hu | hu
    · subst hu
      refine ⟨by simp, ?_⟩
      intro d hd
      rcases List.mem_cons.1 hd with hd | hd
      · subst hd
        simpa using hc
      · have := List.mem_takeWhile_imp hd
        simpa using this
    · exact ih u hu

/-- Decomposition of a token of `pySplit`: it occurs in the string
flanked by whitespace (or the string edge). -/
theorem pySplit_decomp :
    ∀ (l : List Char) (u : List Char), u ∈ pySplit l →
      ∃ x y, l = x ++ u ++ y ∧
        (∀ c, x.getLast? = some c → isSpaceChar c = true) ∧
        (∀ c, y.head? = some c → isSpaceChar c = true) := by
  intro l
  induction l using pySplit.induct with
  | case1 => intro u hu; simp [pySplit] at hu
  | case2 c s hc ih =>
    intro u hu
    rw [pySplit, if_pos hc] at hu
    obtain ⟨x, y, hxy, hx, hy⟩ := ih u hu
    refine ⟨c :: x, y, by rw [hxy]; rfl, ?_, hy⟩
    intro d hd
    cases x with
    | nil =>
      simp only [List.getLast?_singleton] at hd
      injection hd with hd
      subst hd
      exact hc
    | cons x0 x2 =>
      rw [show (c :: (x0 :: x2) : List Char) = [c] ++ (x0 :: x2) from rfl,
        List.getLast?_append] at hd
      rw [List.getLast?_eq_getLast (x0 :: x2) (by simp)] at hd
      simp only [Option.or_some] at hd
      apply hx
      rw [List.getLast?_eq_getLast (x0 :: x2) (by simp)]
      exact hd
  | case3 c s hc ih =>
    intro u hu
    rw [pySplit, if_neg hc] at hu
    rcases List.mem_cons.1 hu with hu | hu
    · refine ⟨[], s.dropWhile (fun d => !isSpaceChar d), ?_, by simp, ?_⟩
      · rw [hu]
        simp only [List.nil_append, List.cons_append,
          List.takeWhile_append_dropWhile]
      · intro d hd
        have := head?_dropWhile hd
        simpa using this
    · obtain ⟨x, y, hxy, hx, hy⟩ := ih u hu
      by_cases hx0 : x = []
      · exfalso
        subst hx0
        rw [List.nil_append] at hxy
        obtain ⟨hune, hunsp⟩ := pySplit_wf _ u hu
        cases hD : s.dropWhile (fun d => !isSpaceChar d) with
        | nil =>
          rw [hD] at hu
          simp [pySplit] at hu
        | cons d D2 =>
          have hdsp : isSpaceChar d = true := by
            have := head?_dropWhile (p := fun d => !isSpaceChar d) (s := s) (c := d)
              (by rw [hD]; rfl)
            simpa using this
          rw [hD] at hxy
          cases u with
          | nil => exact hune rfl
          | cons u0 u2 =>
            rw [List.cons_append] at hxy
            injection hxy with h0 h1
            subst h0
            exact absurd hdsp (by simp [hunsp d (List.mem_cons_self _ _)])
      · refine ⟨c :: s.takeWhile (fun d => !isSpaceChar d) ++ x, y, ?_, ?_, hy⟩
        · conv_lhs => rw [show (c :: s : List Char) = c :: (s.takeWhile
            (fun d => !isSpaceChar d) ++ s.dropWhile (fun d => !isSpaceChar d)) from by
              rw [List.takeWhile_append_dropWhile]]
          rw [hxy]
          simp [List.append_assoc]
        · intro d hd
          rw [show (c :: s.takeWhile (fun d => !isSpaceChar d) ++ x : List Char) =
            (c :: s.takeWhile (fun d => !isSpaceChar d)) ++ x from rfl,
            List.getLast?_append] at hd
          rw [List.getLast?_eq_getLast x hx0] at hd
          simp only [Option.or_some] at hd
          apply hx
          rw [List.getLast?_eq_getLast x hx0]
          exact hd


theorem head_nonword_of_flank {y0 : List Char}
    (h0 : ∀ c, y0.head? = some c → isSpaceChar c = true) :
    isWordChar (y0.headD ' ') = false := by
  cases y0 with
  | nil => decide
  | cons d y2 => exact not_word_of_space (h0 d rfl)

theorem head_ne_dot_of_flank {y0 : List Char}
    (h0 : ∀ c, y0.head? = some c → isSpaceChar c = true) :
    y0.headD ' ' ≠ '.' := by
  cases y0 with
  | nil => decide
  | cons d y2 => exact space_ne_dot (h0 d rfl)

/-- Appending a whitespace-headed flank after the scrutinized tail does
not change whether a fire would alter the string. -/
theorem fireChanges_flank {a : Char} {as r : List Char} {y0 : List Char}
    (h0 : ∀ c, y0.head? = some c → isSpaceChar c = true) :
    ∀ t : List Char, fireChanges a as r (t ++ y0) = fireChanges a as r t := by
  have hnw := head_nonword_of_flank h0
  have hnd := head_ne_dot_of_flank h0
  intro t
  cases t with
  | nil =>
    rw [List.nil_append]
    simp only [fireChanges]
    rw [if_neg (fun h => hnd h.1),
      if_neg (fun h => by rw [hnw] at h; exact absurd h.2.2 (by simp))]
    simp
  | cons c t2 =>
    cases t2 with
    | nil =>
      simp only [List.cons_append, List.nil_append, fireChanges, List.headD_cons,
        List.drop_succ_cons, List.drop_zero]
      rw [show isWordChar (y0.headD ' ') = isWordChar (([] : List Char).headD ' ') from by
        rw [hnw]; decide]
      simp
    | cons e t3 =>
      simp only [List.cons_append, fireChanges, List.headD_cons,
        List.drop_succ_cons, List.drop_zero]
      simp

theorem isPrefixOf_append_left {u y y0 : List Char} (h : u.isPrefixOf y = true) :
    u.isPrefixOf (y ++ y0) = true := by
  have hy := eq_append_drop_of_isPrefixOf h
  rw [show y ++ y0 = u ++ (y.drop u.length ++ y0) from by rw [← List.append_assoc, ← hy]]
  exact isPrefixOf_append_self u _

theorem length_le_of_isPrefixOf {u y : List Char} (h : u.isPrefixOf y = true) :
    u.length ≤ y.length := by
  obtain ⟨t, ht⟩ := List.isPrefixOf_iff_prefix.1 h
  rw [← ht]
  simp

/-- A substring flanked by whitespace (or string edges) inherits the
no-changing-match property from the whole string. -/
theorem NoChQ_token {a : Char} {as r : List Char} {z x0 t y0 : List Char}
    (H : NoChQ a as r z) (hz : z = x0 ++ t ++ y0)
    (hxl : ∀ c, x0.getLast? = some c → isSpaceChar c = true)
    (hy0 : ∀ c, y0.head? = some c → isSpaceChar c = true) :
    NoChQ a as r t := by
  intro x y hsplit hprev hpref
  have hz2 : z = (x0 ++ x) ++ (y ++ y0) := by
    rw [hz, hsplit]
    simp [List.append_assoc]
  have hprev2 : prevFlag (x0 ++ x) = false := by
    cases x with
    | nil =>
      rw [List.append_nil]
      unfold prevFlag
      cases hg : x0.getLast? with
      | none => rfl
      | some c => exact not_word_of_space (hxl c hg)
    | cons c x2 => rw [prevFlag_append (by simp)]; exact hprev
  have hpref2 : (a :: as).isPrefixOf (y ++ y0) = true := isPrefixOf_append_left hpref
  have hfz := H (x0 ++ x) (y ++ y0) hz2 hprev2 hpref2
  have hylen : as.length + 1 ≤ y.length := by
    have := length_le_of_isPrefixOf hpref
    simpa using this
  rw [drop_append_small hylen, fireChanges_flank hy0] at hfz
  exact hfz

/-- The scan fixes a space-joined token list whose tokens it fixes. -/
theorem subW_joinSp_id {a : Char} {as r : List Char}
    (HW : ∀ c ∈ (a :: as), isWordChar c = true) :
    ∀ L : List (List Char), (∀ t ∈ L, subW a as r false t = t) →
      subW a as r false (joinSp L) = joinSp L := by
  intro L
  induction L with
  | nil => intro _; rw [show joinSp [] = [] from rfl, subW_nil]
  | cons t ts ih =>
    intro h
    cases ts with
    | nil => exact h t (by simp)
    | cons t2 ts2 =>
      rw [show joinSp (t :: t2 :: ts2) = t ++ ' ' :: joinSp (t2 :: ts2) from rfl]
      rw [subW_split_space HW (by decide) t.length t rfl false (joinSp (t2 :: ts2))]
      rw [h t (by simp), ih (fun u hu => h u (by simp [hu]))]

/-- Each token of the collapsed string is fixed by the scan when the
whole string admits no changing match. -/
theorem subW_token_id {a : Char} {as r : List Char}
    (HW : ∀ c ∈ (a :: as), isWordChar c = true) {z : List Char} (H : NoChQ a as r z) :
    ∀ t ∈ pySplit z, subW a as r false t = t := by
  intro t ht
  obtain ⟨x0, y0, hz, hxl, hy0⟩ := pySplit_decomp z t ht
  exact subW_eq_self_of_NoChQ HW (NoChQ_token H hz hxl hy0)

/-- The scan fixes the whitespace-collapsed form of a string admitting
no changing match. -/
theorem subW_collapse_id {a : Char} {as r : List Char}
    (HW : ∀ c ∈ (a :: as), isWordChar c = true) {z : List Char} (H : NoChQ a as r z) :
    subW a as r false (collapseWs z) = collapseWs z := by
  unfold collapseWs
  exact subW_joinSp_id HW (pySplit z) (subW_token_id HW H)

theorem pySplit_token (t : List Char) (htne : t ≠ [])
    (htw : ∀ c ∈ t, isSpaceChar c = false) :
    ∀ rest : List Char, (∀ c, rest.head? = some c → isSpaceChar c = true) →
      pySplit (t ++ rest) = t :: pySplit rest := by
  intro rest hrest
  cases t with
  | nil => exact absurd rfl htne
  | cons c s =>
    have hc : isSpaceChar c = false := htw c (by simp)
    rw [List.cons_append, pySplit, if_neg (by simp [hc])]
    have htk : (s ++ rest).takeWhile (fun d => !isSpaceChar d) = s := by
      have hs : s.takeWhile (fun d => !isSpaceChar d) = s :=
        List.takeWhile_eq_self_iff.2 (fun d hd => by
          simp [htw d (List.mem_cons_of_mem _ hd)])
      rw [List.takeWhile_append, if_pos (by rw [hs])]
      cases rest with
      | nil => simp
      | cons d r2 =>
        rw [List.takeWhile_cons, if_neg (by simp [hrest d rfl])]
        simp
    have hdr : (s ++ rest).dropWhile (fun d => !isSpaceChar d) = rest := by
      have hs : s.dropWhile (fun d => !isSpaceChar d) = [] :=
        List.dropWhile_eq_nil_iff.2 (fun d hd => by
          simp [htw d (List.mem_cons_of_mem _ hd)])
      rw [List.dropWhile_append, if_pos (by rw [hs]; rfl)]
      cases rest with
      | nil => rfl
      | cons d r2 =>
        rw [List.dropWhile_cons, if_neg (by simp [hrest d rfl])]
    rw [htk, hdr]

/-- Splitting a space-join of well-formed tokens recovers the tokens. -/
theorem pySplit_joinSp : ∀ L : List (List Char),
    (∀ t ∈ L, t ≠ [] ∧ ∀ c ∈ t, isSpaceChar c = false) →
    pySplit (joinSp L) = L := by
  intro L
  induction L with
  | nil => intro _; simp [joinSp, pySplit]
  | cons t ts ih =>
    intro h
    obtain ⟨hne, hw⟩ := h t (by simp)
    cases ts with
    | nil =>
      have := pySplit_token t hne hw [] (by intro c hc; simp at hc)
      rw [show pySplit [] = [] from by simp [pySplit]] at this
      simpa [joinSp] using this
    | cons t2 ts2 =>
      rw [show joinSp (t :: t2 :: ts2) = t ++ ' ' :: joinSp (t2 :: ts2) from rfl]
      rw [pySplit_token t hne hw (' ' :: joinSp (t2 :: ts2))
        (by intro c hc; injection hc with hc; rw [← hc]; decide)]
      rw [show pySplit (' ' :: joinSp (t2 :: ts2)) = pySplit (joinSp (t2 :: ts2)) from by
        rw [pySplit, if_pos (by decide)]]
      rw [ih (fun u hu => h u (by simp [hu]))]

/-- Collapsing whitespace is idempotent. -/
theorem collapseWs_idem (z : List Char) : collapseWs (collapseWs z) = collapseWs z := by
  unfold collapseWs
  rw [pySplit_joinSp (pySplit z) (fun t ht => pySplit_wf z t ht)]

theorem dropWhile_eq_self_of_head {l : List Char}
    (h : ∀ c, l.head? = some c → isSpaceChar c = false) :
    l.dropWhile isSpaceChar = l := by
  cases l with
  | nil => rfl
  | cons c s => rw [List.dropWhile_cons, if_neg (by simp [h c rfl])]

/-- Stripping is a no-op on a string with non-space ends. -/
theorem pyStrip_eq_self {l : List Char}
    (h1 : ∀ c, l.head? = some c → isSpaceChar c = false)
    (h2 : ∀ c, l.getLast? = some c → isSpaceChar c = false) :
    pyStrip l = l := by
  unfold pyStrip
  rw [dropWhile_eq_self_of_head h1,
    dropWhile_eq_self_of_head (by
      intro c hc
      rw [List.head?_reverse] at hc
      exact h2 c hc),
    List.reverse_reverse]

theorem head?_joinSp_nonspace :
    ∀ L : List (List Char), (∀ t ∈ L, t ≠ [] ∧ ∀ c ∈ t, isSpaceChar c = false) →
    ∀ c, (joinSp L).head? = some c → isSpaceChar c = false := by
  intro L h c hc
  cases L with
  | nil => simp [joinSp] at hc
  | cons t ts =>
    obtain ⟨hne, hw⟩ := h t (by simp)
    cases t with
    | nil => exact absurd rfl hne
    | cons c0 s =>
      have hhead : (joinSp ((c0 :: s) :: ts)).head? = some c0 := by
        cases ts with
        | nil => rfl
        | cons t2 ts2 => rfl
      rw [hhead] at hc
      injection hc with hc
      rw [← hc]
      exact hw c0 (by simp)

theorem joinSp_ne_nil {L : List (List Char)} (hL : L ≠ [])
    (h : ∀ t ∈ L, t ≠ []) : joinSp L ≠ [] := by
  cases L with
  | nil => exact absurd rfl hL
  | cons t ts =>
    cases ts with
    | nil => exact h t (by simp)
    | cons t2 ts2 =>
      have hne := h t (by simp)
      cases t with
      | nil => exact absurd rfl hne
      | cons c s => simp [joinSp]

theorem getLast?_joinSp_nonspace :
    ∀ L : List (List Char), (∀ t ∈ L, t ≠ [] ∧ ∀ c ∈ t, isSpaceChar c = false) →
    ∀ c, (joinSp L).getLast? = some c → isSpaceChar c = false := by
  intro L
  induction L with
  | nil => intro _ c hc; simp [joinSp] at hc
  | cons t ts ih =>
    intro h c hc
    cases ts with
    | nil =>
      obtain ⟨hne, hw⟩ := h t (by simp)
      rw [show joinSp [t] = t from rfl] at hc
      exact hw c (List.mem_of_mem_getLast? hc)
    | cons t2 ts2 =>
      have hjne : joinSp (t2 :: ts2) ≠ [] :=
        joinSp_ne_nil (by simp) (fun u hu => (h u (by simp [hu])).1)
      rw [show joinSp (t :: t2 :: ts2) = t ++ ' ' :: joinSp (t2 :: ts2) from rfl,
        List.getLast?_append_of_ne_nil t (by simp),
        show (' ' :: joinSp (t2 :: ts2) : List Char) = [' '] ++ joinSp (t2 :: ts2) from rfl,
        List.getLast?_append_of_ne_nil [' '] hjne] at hc
      exact ih (fun u hu => h u (by simp [hu])) c hc

/-- Collapsing whitespace leaves a string that stripping does not change. -/
theorem pyStrip_collapseWs (z : List Char) : pyStrip (collapseWs z) = collapseWs z := by
  unfold collapseWs
  exact pyStrip_eq_self
    (head?_joinSp_nonspace (pySplit z) (fun t ht => pySplit_wf z t ht))
    (getLast?_joinSp_nonspace (pySplit z) (fun t ht => pySplit_wf z t ht))

/-- Is a character a parenthesis? -/
def parQ (c : Char) : Bool := c = '(' || c = ')'

/-- No '(' is ever followed by a ')' (the pattern `\([^)]*\)` cannot
match). -/
def NoPair (l : List Char) : Prop :=
  ∀ x y, l = x ++ '(' :: y → (')' : Char) ∉ y

theorem NoPair_nil : NoPair [] := by
  intro x y hxy
  exact absurd hxy (by simp)

theorem NoPair_cons {c : Char} {t : List Char} :
    NoPair (c :: t) ↔ (c = '(' → (')' : Char) ∉ t) ∧ NoPair t := by
  constructor
  · intro h
    refine ⟨fun hc => ?_, fun x y hxy => ?_⟩
    · subst hc
      exact h [] t rfl
    · exact h (c :: x) y (by rw [hxy]; rfl)
  · rintro ⟨h1, h2⟩ x y hxy
    cases x with
    | nil =>
      rw [List.nil_append] at hxy
      injection hxy with hc ht
      rw [← ht]
      exact h1 hc
    | cons x0 x2 =>
      rw [List.cons_append] at hxy
      injection hxy with h0 ht
      exact h2 x2 y ht

/-- `NoPair` only depends on the subsequence of parentheses. -/
theorem NoPair_filter : ∀ l : List Char, NoPair l ↔ NoPair (l.filter parQ) := by
  intro l
  induction l with
  | nil => exact Iff.rfl
  | cons c s ih =>
    by_cases hq : parQ c = true
    · rw [List.filter_cons_of_pos hq, NoPair_cons, NoPair_cons, ih]
      have hmem : ((')' : Char) ∈ s) ↔ (')' : Char) ∈ s.filter parQ := by
        constructor
        · intro h; exact List.mem_filter.2 ⟨h, by decide⟩
        · intro h; exact (List.mem_filter.1 h).1
      constructor
      · rintro ⟨h1, h2⟩; exact ⟨fun hc hm => h1 hc (hmem.2 hm), h2⟩
      · rintro ⟨h1, h2⟩; exact ⟨fun hc hm => h1 hc (hmem.1 hm), h2⟩
    · rw [List.filter_cons_of_neg hq, ← ih, NoPair_cons]
      constructor
      · exact fun h => h.2
      · intro h
        refine ⟨fun hc => ?_, h⟩
        rw [hc] at hq
        exact absurd (show parQ '(' = true from by decide) hq

theorem NoPair_of_filter_eq {l1 l2 : List Char}
    (hf : l1.filter parQ = l2.filter parQ) (h : NoPair l1) : NoPair l2 := by
  rw [NoPair_filter l2, ← hf]
  exact (NoPair_filter l1).1 h

/-- The output of parenthesized-group removal never has a '(' followed
by a ')'. -/
theorem NoPair_removeParens : ∀ l : List Char, NoPair (removeParens l) := by
  intro l
  induction l using removeParens.induct with
  | case1 =>
    rw [show removeParens [] = [] from by simp [removeParens]]
    exact NoPair_nil
  | case2 c0 s hc ih =>
    rw [removeParens, if_pos hc]
    exact ih
  | case3 c0 s hc ih =>
    rw [removeParens, if_neg hc, NoPair_cons]
    refine ⟨fun hc0 => fun hm => ?_, ih⟩
    have hs : (')' : Char) ∈ s := mem_of_mem_removeParens hm
    rw [hc0] at hc
    exact hc ⟨rfl, by simpa [List.contains] using hs⟩

/-- Parenthesized-group removal fixes a `NoPair` string. -/
theorem removeParens_eq_self : ∀ l : List Char, NoPair l → removeParens l = l := by
  intro l
  induction l using removeParens.induct with
  | case1 => simp [removeParens]
  | case2 c0 s hc ih =>
    intro h
    exfalso
    have hs : (')' : Char) ∈ s := by simpa [List.contains] using hc.2
    exact h [] s (by rw [hc.1]; rfl) hs
  | case3 c0 s hc ih =>
    intro h
    rw [removeParens, if_neg hc, ih ((NoPair_cons.1 h).2)]

/-- A character filter that ignores the pattern, the replacement and
'.' sees through the scan. -/
theorem filter_subW {p : Char → Bool} {a : Char} {as r : List Char}
    (hpat : ∀ c ∈ (a :: as), p c = false) (hrep : ∀ c ∈ r, p c = false)
    (hpd : p '.' = false) :
    ∀ (pw : Bool) (s : List Char), (subW a as r pw s).filter p = s.filter p := by
  have hfr : r.filter p = [] := List.filter_eq_nil_iff.2 (fun c hc => by simp [hrep c hc])
  have hfpat : (a :: as).filter p = [] :=
    List.filter_eq_nil_iff.2 (fun c hc => by simp [hpat c hc])
  intro pw s
  induction pw, s using subW.induct a as r with
  | case1 x => rw [show subW a as r x [] = [] from by simp [subW]]
  | case2 pw c s hfire hdot ih =>
    rw [subW, if_pos hfire, if_pos hdot, List.filter_append, hfr, List.nil_append, ih]
    have hsplit := eq_append_drop_of_isPrefixOf hfire.2
    rw [List.length_cons, List.drop_succ_cons] at hsplit
    have hdd : s.drop as.length = '.' :: (s.drop as.length).drop 1 :=
      headD_dot_decomp hdot.1
    conv_rhs => rw [hsplit]
    rw [List.filter_append, hfpat, List.nil_append]
    conv_rhs => rw [hdd]
    rw [List.filter_cons_of_neg (by simp [hpd])]
  | case3 pw c s hfire hdot hmid ih =>
    rw [subW, if_pos hfire, if_neg hdot, if_pos hmid, List.filter_cons, List.filter_cons, ih]
  | case4 pw c s hfire hdot hmid ih =>
    rw [subW, if_pos hfire, if_neg hdot, if_neg hmid, List.filter_append, hfr,
      List.nil_append, ih]
    have hsplit := eq_append_drop_of_isPrefixOf hfire.2
    rw [List.length_cons, List.drop_succ_cons] at hsplit
    conv_rhs => rw [hsplit]
    rw [List.filter_append, hfpat, List.nil_append]
  | case5 pw c s hfire ih =>
    rw [subW, if_neg hfire, List.filter_cons, List.filter_cons, ih]

theorem filter_joinSp_cons {p : Char → Bool} (hsp : p ' ' = false)
    (t : List Char) (ts : List (List Char)) :
    (joinSp (t :: ts)).filter p = t.filter p ++ (joinSp ts).filter p := by
  cases ts with
  | nil => simp [joinSp]
  | cons t2 ts2 =>
    rw [show joinSp (t :: t2 :: ts2) = t ++ ' ' :: joinSp (t2 :: ts2) from rfl,
      List.filter_append, List.filter_cons_of_neg (by simp [hsp])]

/-- A character filter that ignores all whitespace sees through
whitespace collapsing. -/
theorem filter_collapseWs {p : Char → Bool}
    (hsp : ∀ c, isSpaceChar c = true → p c = false) :
    ∀ z : List Char, (joinSp (pySplit z)).filter p = z.filter p := by
  have hsp' : p ' ' = false := hsp ' ' (by decide)
  intro z
  induction z using pySplit.induct with
  | case1 => simp [pySplit, joinSp]
  | case2 c s hc ih =>
    rw [pySplit, if_pos hc, List.filter_cons_of_neg (by simp [hsp c hc])]
    exact ih
  | case3 c s hc ih =>
    rw [pySplit, if_neg hc, filter_joinSp_cons hsp', ih, ← List.filter_append]
    rw [show ((c :: s.takeWhile (fun d => !isSpaceChar d)) ++
        s.dropWhile (fun d => !isSpaceChar d) : List Char) =
      c :: (s.takeWhile (fun d => !isSpaceChar d) ++
        s.dropWhile (fun d => !isSpaceChar d)) from rfl]
    rw [List.takeWhile_append_dropWhile]

theorem toUpper_idem (c : Char) : c.toUpper.toUpper = c.toUpper := by
  apply toNat_inj_char
  rw [toUpper_toNat (Char.toUpper c), toUpper_toNat c]
  by_cases h : 97 ≤ c.toNat ∧ c.toNat ≤ 122
  · rw [if_pos h, if_neg (by omega)]
  · rw [if_neg h, if_neg h]

theorem map_toUpper_eq_self {l : List Char} (h : ∀ c ∈ l, c.toUpper = c) :
    l.map Char.toUpper = l := by
  induction l with
  | nil => rfl
  | cons c s ih => rw [List.map_cons, h c (by simp), ih (fun d hd => h d (by simp [hd]))]

theorem mem_joinSp {c : Char} : ∀ {L : List (List Char)}, c ∈ joinSp L →
    (∃ t ∈ L, c ∈ t) ∨ c = ' ' := by
  intro L
  induction L with
  | nil => intro h; exact absurd h (by simp [joinSp])
  | cons t ts ih =>
    intro h
    cases ts with
    | nil => exact Or.inl ⟨t, by simp, h⟩
    | cons t2 ts2 =>
      rw [show joinSp (t :: t2 :: ts2) = t ++ ' ' :: joinSp (t2 :: ts2) from rfl] at h
      rcases List.mem_append.1 h with h1 | h1
      · exact Or.inl ⟨t, by simp, h1⟩
      · rcases List.mem_cons.1 h1 with h2 | h2
        · exact Or.inr h2
        · rcases ih h2 with ⟨u, hu, hcu⟩ | h3
          · exact Or.inl ⟨u, by simp [hu], hcu⟩
          · exact Or.inr h3

theorem mem_of_mem_pySplit {c : Char} {t z : List Char} (ht : t ∈ pySplit z)
    (hc : c ∈ t) : c ∈ z := by
  obtain ⟨x0, y0, hz, _, _⟩ := pySplit_decomp z t ht
  rw [hz]
  simp [hc]

theorem upfix_corpRepl : ∀ c ∈ corpRepl, c.toUpper = c := by decide

theorem upfix_incRepl : ∀ c ∈ incRepl, c.toUpper = c := by decide

theorem upfix_llcRepl : ∀ c ∈ llcRepl, c.toUpper = c := by decide

theorem upfix_coRepl : ∀ c ∈ coRepl, c.toUpper = c := by decide

/-- Every character of the fully substituted string is a character of
the parenthesis-stripped input or an upper-case-fixed letter. -/
theorem mem_subChain {c : Char} {w : List Char}
    (h : c ∈ subCO (subLLC (subINC (subCORP w)))) : c ∈ w ∨ c.toUpper = c := by
  rcases mem_subW h with h1 | h1
  · rcases mem_subW h1 with h2 | h2
    · rcases mem_subW h2 with h3 | h3
      · rcases mem_subW h3 with h4 | h4
        · exact Or.inl h4
        · exact Or.inr (upfix_corpRepl c h4)
      · exact Or.inr (upfix_incRepl c h3)
    · exact Or.inr (upfix_llcRepl c h2)
  · exact Or.inr (upfix_coRepl c h1)

/-- Every character of a cleaned name is fixed by upper-casing. -/
theorem upfix_cleanList (l : List Char) : ∀ c ∈ cleanList l, c.toUpper = c := by
  intro c hc
  unfold cleanList collapseWs at hc
  have h1 := mem_of_mem_pyStrip hc
  rcases mem_joinSp h1 with ⟨t, ht, hct⟩ | hsp
  · have h2 := mem_of_mem_pySplit ht hct
    rcases mem_subChain h2 with h3 | h3
    · have h4 := mem_of_mem_removeParens h3
      have h5 := mem_of_mem_pyStrip h4
      obtain ⟨d, _, hd⟩ := List.mem_map.1 h5
      rw [← hd]
      exact toUpper_idem d
    · exact h3
  · rw [hsp]
    decide

theorem parQ_space {c : Char} (h : isSpaceChar c = true) : parQ c = false := by
  cases hp : parQ c
  · rfl
  · exfalso
    have hc : c = '(' ∨ c = ')' := by simpa [parQ] using hp
    rcases hc with h1 | h1 <;> rw [h1] at h <;> exact absurd h (by decide)

/-- The four whole-word substitutions do not touch parentheses. -/
theorem filter_parQ_chain (w : List Char) :
    (subCO (subLLC (subINC (subCORP w)))).filter parQ = w.filter parQ := by
  unfold subCO subLLC subINC subCORP
  rw [@filter_subW parQ 'C' ['O'] coRepl (by decide) (by decide) (by decide),
    @filter_subW parQ 'L' ['L','C'] llcRepl (by decide) (by decide) (by decide),
    @filter_subW parQ 'I' ['N','C'] incRepl (by decide) (by decide) (by decide),
    @filter_subW parQ 'C' ['O','R','P'] corpRepl (by decide) (by decide) (by decide)]

/-- The cleaning pipeline is idempotent at the character-list level. -/
theorem cleanList_idem (l : List Char) : cleanList (cleanList l) = cleanList l := by
  have hl' : cleanList l = collapseWs (subCO (subLLC (subINC (subCORP
      (removeParens (pyStrip (List.map Char.toUpper l))))))) := by
    unfold cleanList
    exact pyStrip_collapseWs _
  have hup : List.map Char.toUpper (collapseWs (subCO (subLLC (subINC (subCORP
      (removeParens (pyStrip (List.map Char.toUpper l)))))))) =
      collapseWs (subCO (subLLC (subINC (subCORP
      (removeParens (pyStrip (List.map Char.toUpper l))))))) :=
    map_toUpper_eq_self (fun c hc => upfix_cleanList l c (by rw [hl']; exact hc))
  have hstrip : pyStrip (collapseWs (subCO (subLLC (subINC (subCORP
      (removeParens (pyStrip (List.map Char.toUpper l)))))))) =
      collapseWs (subCO (subLLC (subINC (subCORP
      (removeParens (pyStrip (List.map Char.toUpper l))))))) :=
    pyStrip_collapseWs _
  have hfc : (collapseWs (subCO (subLLC (subINC (subCORP
      (removeParens (pyStrip (List.map Char.toUpper l)))))))).filter parQ =
      (removeParens (pyStrip (List.map Char.toUpper l))).filter parQ := by
    unfold collapseWs
    rw [filter_collapseWs (fun c hc => parQ_space hc)]
    exact filter_parQ_chain _
  have hnp : NoPair (collapseWs (subCO (subLLC (subINC (subCORP
      (removeParens (pyStrip (List.map Char.toUpper l)))))))) :=
    NoPair_of_filter_eq hfc.symm (NoPair_removeParens _)
  have hrp : removeParens (collapseWs (subCO (subLLC (subINC (subCORP
      (removeParens (pyStrip (List.map Char.toUpper l)))))))) =
      collapseWs (subCO (subLLC (subINC (subCORP
      (removeParens (pyStrip (List.map Char.toUpper l))))))) :=
    removeParens_eq_self _ hnp
  have hcorp : subCORP (collapseWs (subCO (subLLC (subINC (subCORP
      (removeParens (pyStrip (List.map Char.toUpper l)))))))) =
      collapseWs (subCO (subLLC (subINC (subCORP
      (removeParens (pyStrip (List.map Char.toUpper l))))))) :=
    subW_collapse_id (by decide) (NoChQ_corp _)
  have hinc : subINC (collapseWs (subCO (subLLC (subINC (subCORP
      (removeParens (pyStrip (List.map Char.toUpper l)))))))) =
      collapseWs (subCO (subLLC (subINC (subCORP
      (removeParens (pyStrip (List.map Char.toUpper l))))))) :=
    subW_collapse_id (by decide) (NoChQ_inc _)
  have hllc : subLLC (collapseWs (subCO (subLLC (subINC (subCORP
      (removeParens (pyStrip (List.map Char.toUpper l)))))))) =
      collapseWs (subCO (subLLC (subINC (subCORP
      (removeParens (pyStrip (List.map Char.toUpper l))))))) :=
    subW_collapse_id (by decide) (NoChQ_llc _)
  have hco : subCO (collapseWs (subCO (subLLC (subINC (subCORP
      (removeParens (pyStrip (List.map Char.toUpper l)))))))) =
      collapseWs (subCO (subLLC (subINC (subCORP
      (removeParens (pyStrip (List.map Char.toUpper l))))))) :=
    subW_collapse_id (by decide) (NoChQ_co _)
  rw [hl']
  unfold cleanList
  rw [hup, hstrip, hrp, hcorp, hinc, hllc, hco, collapseWs_idem, hstrip]

theorem cleanList_nil : cleanList [] = [] := by
  simp [cleanList, pyStrip, collapseWs, pySplit, joinSp, removeParens,
    subCORP, subINC, subLLC, subCO, subW]

theorem clean_company_name_eq (x : String) :
    clean_company_name x = (cleanList x.toList).asString := by
  unfold clean_company_name
  by_cases hx : x = ""
  · rw [if_pos hx, hx]
    rw [show ("" : String).toList = [] from rfl, cleanList_nil]
    rfl
  · rw [if_neg hx]

/-- C8: `clean_company_name` is idempotent: for every input string,
cleaning the cleaned name returns it unchanged. -/
theorem c8_idempotent (x : String) :
    clean_company_name (clean_company_name x) = clean_company_name x := by
  rw [clean_company_name_eq x, clean_company_name_eq ((cleanList x.toList).asString),
    List.toList_asString, cleanList_idem]
